import Mathlib

/-!
# Verification of the `cpconfig` reconciliation core

This file is a shallow embedding, in Lean 4, of the configuration-file
synchronisation core of the `cpconfig` repository (`src/index.ts`): the path
normalizer (`normalizeFiles` and its helpers), the file reconciler
(`syncFile` / `syncConfigs`) and the ignore-block manager (`syncGitignore`,
`extractManagedBlock`, `buildGitignoreContent`).

Modelling conventions:

* JavaScript strings are modelled as `List Char` (abbreviated `Str`); string
  operations used by the source (`trim`, `split`, `startsWith`, `includes`,
  `replace` with the concrete regexes appearing in the source) are implemented
  character by character with exactly the source's semantics.  `trim` is
  modelled over ASCII whitespace.
* The file system is modelled as an association list from absolute path
  strings to file contents (`FS`).  Reading a missing path yields `none`
  (the source's ENOENT case); `mkdir -p` of parent directories does not
  change any file's content and is therefore the identity in this model.
* Asynchronous effects are modelled by explicit state passing; thrown
  exceptions by `Except String`.  The only throw sites reachable in the
  typed model are the validation errors of `normalizeFiles`.
* A `contents` factory function is invoked exactly once per invocation and is
  pure from the reconciler's point of view, so it is modelled by the string
  it returns.
-/

set_option linter.unusedVariables false

deriving instance DecidableEq for Except

abbrev Str := List Char

namespace Cpconfig

/-! ## Character-level string primitives -/

/-- JavaScript ASCII whitespace recognised by `String.prototype.trim`. -/
def isJsWhitespace (c : Char) : Bool :=
  c = ' ' || c = '\t' || c = '\n' || c = '\r' || c = '\x0b' || c = '\x0c'

/-- `value.trim()`: strip leading and trailing whitespace. -/
def trimChars (l : Str) : Str :=
  ((l.dropWhile isJsWhitespace).reverse.dropWhile isJsWhitespace).reverse

/-- `s.startsWith(String.fromCharCode(c))` for a single character. -/
def startsWithChar (c : Char) (l : Str) : Bool :=
  match l with
  | [] => false
  | d :: _ => d = c

/-- `s.split(sep)` for a single-character separator. -/
def splitChar (sep : Char) : Str → List Str
  | [] => [[]]
  | c :: rest =>
    match splitChar sep rest with
    | [] => [[c]]
    | p :: ps => if c = sep then [] :: p :: ps else (c :: p) :: ps

/-- `content.split(/\r?\n/)`: every `\n` is a line break and consumes an
immediately preceding `\r`; a lone `\r` stays inside its line. -/
def splitLinesCore : Str → List Str
  | [] => [[]]
  | [c] => if c = '\n' then [[], []] else [[c]]
  | c :: d :: rest =>
    if c = '\n' then [] :: splitLinesCore (d :: rest)
    else if c = '\r' ∧ d = '\n' then [] :: splitLinesCore rest
    else
      match splitLinesCore (d :: rest) with
      | [] => [[c]]
      | p :: ps => (c :: p) :: ps

/-! ## Path arithmetic (POSIX rules, as used by `path.resolve`,
`path.relative`, `path.isAbsolute` on '/'-separated paths) -/

def isAbsolute (p : Str) : Bool := startsWithChar '/' p

/-- One step of the segment normalisation underlying
`path.resolve`/`path.normalize` for an absolute path: empty and `.` segments
are dropped, `..` pops the previous segment (and is dropped at the root). -/
def segStep (acc : List Str) (seg : Str) : List Str :=
  if seg = [] || seg = ['.'] then acc
  else if seg = ['.', '.'] then acc.dropLast
  else acc ++ [seg]

def normalizeSegs (segs : List Str) : List Str :=
  segs.foldl segStep []

/-- Render an absolute path from its normalised segments. -/
def joinAbs (segs : List Str) : Str :=
  '/' :: (List.intercalate ['/'] segs)

/-- `path.resolve(base, p)` with `base` an absolute path. -/
def pathResolve (base p : Str) : Str :=
  joinAbs (normalizeSegs
    (if isAbsolute p then splitChar '/' p else splitChar '/' base ++ splitChar '/' p))

/-- Length of the longest common prefix of two segment lists. -/
def commonLen : List Str → List Str → Nat
  | a :: as, b :: bs => if a = b then commonLen as bs + 1 else 0
  | _, _ => 0

/-- `path.relative(fromP, toP)` for absolute POSIX paths. -/
def pathRelative (fromP toP : Str) : Str :=
  let f := normalizeSegs (splitChar '/' fromP)
  let t := normalizeSegs (splitChar '/' toP)
  let c := commonLen f t
  List.intercalate ['/'] (List.replicate (f.length - c) ['.', '.'] ++ t.drop c)

/-! ## File system model -/

/-- The file system: an association list from absolute paths to contents. -/
abbrev FS := List (Str × Str)

/-- `fs.readFile(p)`: `some` contents, or `none` for the ENOENT case. -/
def fsRead : FS → Str → Option Str
  | [], _ => none
  | (q, c) :: rest, p => if q = p then some c else fsRead rest p

/-- `fs.writeFile(p, c)` (after `fs.mkdir(dirname(p), {recursive:true})`,
which is the identity on file contents). -/
def fsWrite : FS → Str → Str → FS
  | [], p, c => [(p, c)]
  | (q, d) :: rest, p, c =>
    if q = p then (q, c) :: rest else (q, d) :: fsWrite rest p c

/-! ## Data model (`src/index.ts` types) -/

/-- `ConfigEntry`: desired contents plus per-file options.  A contents
factory is modelled by the string it returns (invoked once per invocation). -/
structure ConfigEntry where
  contents : Str
  gitignore : Option Bool := none
  mode : Option Nat := none
deriving Repr, DecidableEq

/-- `ConfigMap = Record<string, ConfigEntry>`, in declaration order. -/
abbrev ConfigMap := List (Str × ConfigEntry)

/-- `SyncOptions` (the `encoding` option selects a text codec and is
invisible in this single-encoding text model). -/
structure SyncOptions where
  rootDir : Option Str := none
  dryRun : Option Bool := none
  gitignorePath : Option Str := none
deriving Repr, DecidableEq

inductive FileAction where
  | created
  | updated
  | unchanged
deriving Repr, DecidableEq

structure FileSyncResult where
  path : Str
  absolutePath : Str
  action : FileAction
  skipped : Bool
  gitignored : Bool
deriving Repr, DecidableEq

structure GitignoreResult where
  path : Str
  updated : Bool
  added : List Str
  removed : List Str
  skipped : Bool
deriving Repr, DecidableEq

structure SyncResult where
  rootDir : Str
  files : List FileSyncResult
  gitignore : GitignoreResult
deriving Repr, DecidableEq

structure NormalizedConfigFile where
  relativePath : Str
  absolutePath : Str
  contents : Str
  gitignoreEntry : Option Str
  mode : Option Nat
deriving Repr, DecidableEq

/-! ## Path normalizer (`normalizeFiles` and helpers) -/

def MANAGED_COMMENT : Str := "# Managed by cpconfig".data

/-- `relativePath.split(path.sep).join('/')` followed by the anchored
rewrite `replace(/^\.\/(.*)/, '$1')` (drop one leading `./`). -/
def stripDotSlash (l : Str) : Str :=
  if l.take 2 = ['.', '/'] then l.drop 2 else l

def normalizeRelativePath (relativePath : Str) : Str :=
  stripDotSlash (List.intercalate ['/'] (splitChar '/' relativePath))

/-- Membership test mirroring `Set.prototype.has` on a list of seen keys. -/
def seenMem : List Str → Str → Bool
  | [], _ => false
  | s :: rest, x => s = x || seenMem rest x

/-- The per-entry path validation of `normalizeFiles`: empty path, absolute
path and root-escape checks, then the relative-path normalisation.  Returns
`(normalizedRelative, absolutePath)`. -/
def computePaths (rootDir rawPath : Str) : Except String (Str × Str) :=
  if trimChars rawPath = [] then
    .error "is missing a valid path"
  else if isAbsolute rawPath then
    .error "must be relative to the root directory"
  else if (pathRelative rootDir (pathResolve rootDir rawPath)).take 2 = ['.', '.'] ||
      (splitChar '/' (pathRelative rootDir (pathResolve rootDir rawPath))).any
        (fun seg => seg = ['.', '.']) then
    .error "must reside within the root directory"
  else
    .ok (normalizeRelativePath (pathRelative rootDir (pathResolve rootDir rawPath)),
      pathResolve rootDir rawPath)

def normalizeFilesGo (rootDir : Str) :
    List (Str × ConfigEntry) → List Str → Except String (List NormalizedConfigFile)
  | [], _ => .ok []
  | (rawPath, entry) :: rest, seen =>
    match computePaths rootDir rawPath with
    | .error e => .error e
    | .ok pair =>
      if seenMem seen pair.1 then
        .error "Duplicate config file definition"
      else
        match normalizeFilesGo rootDir rest (pair.1 :: seen) with
        | .error e => .error e
        | .ok tail =>
          .ok ({ relativePath := pair.1
                 absolutePath := pair.2
                 contents := entry.contents
                 gitignoreEntry :=
                   if entry.gitignore = some false then none else some pair.1
                 mode := entry.mode } :: tail)

def normalizeFiles (files : ConfigMap) (rootDir : Str) :
    Except String (List NormalizedConfigFile) :=
  normalizeFilesGo rootDir files []

/-- `resolveGitignorePath`. -/
def resolveGitignorePath (rootDir : Str) (customPath : Option Str) : Str :=
  match customPath with
  | none => pathResolve rootDir ".gitignore".data
  | some c => if isAbsolute c then c else pathResolve rootDir c

/-! ## File reconciler (`syncFile`, result assembly of `syncConfigs`) -/

/-- `syncFile`: read the existing contents (ENOENT tolerated as `none`),
compare with the desired contents, and write (after `mkdir -p`) unless in
dry-run mode. -/
def syncFile (file : NormalizedConfigFile) (dryRun : Bool) (fs : FS) :
    FileAction × FS :=
  if fsRead fs file.absolutePath = some file.contents then (.unchanged, fs)
  else
    ((if fsRead fs file.absolutePath = none then .created else .updated),
      if dryRun then fs else fsWrite fs file.absolutePath file.contents)

/-- The per-file loop of `syncConfigs`: run `syncFile` over the normalized
files in order, building the `FileSyncResult` records. -/
def runFiles (dryRun : Bool) : List NormalizedConfigFile → FS → List FileSyncResult × FS
  | [], fs => ([], fs)
  | f :: rest, fs =>
    let step := syncFile f dryRun fs
    let tail := runFiles dryRun rest step.2
    ({ path := f.relativePath
       absolutePath := f.absolutePath
       action := step.1
       skipped := step.1 = FileAction.unchanged
       gitignored := decide (f.gitignoreEntry.getD [] ≠ []) } :: tail.1,
     tail.2)

/-! ## Ignore-block manager -/

/-- `normalizeGitignoreEntry`: trim; drop empties and comments; strip one
leading `./`; replace every backslash by a forward slash. -/
def normalizeGitignoreEntry (value : Str) : Str :=
  if trimChars value = [] || startsWithChar '#' (trimChars value) then []
  else (stripDotSlash (trimChars value)).map (fun c => if c = '\\' then '/' else c)

def uniqueNormalizedGo : List Str → List Str → List Str
  | [], _ => []
  | e :: rest, seen =>
    if e = [] || seenMem seen e then uniqueNormalizedGo rest seen
    else e :: uniqueNormalizedGo rest (e :: seen)

/-- `uniqueNormalized`: dedupe, preserving first-seen order, skipping
falsy entries. -/
def uniqueNormalized (entries : List Str) : List Str :=
  uniqueNormalizedGo entries []

/-- `splitLines`: split on `/\r?\n/` and drop one trailing empty piece
(`lines.length > 0 && lines[lines.length-1] === ''`). -/
def splitLines (content : Str) : List Str :=
  if content = [] then []
  else if splitLinesCore content ≠ [] ∧ (splitLinesCore content).getLast? = some [] then
    (splitLinesCore content).dropLast
  else splitLinesCore content

/-- `trimTrailingEmptyLines`: pop lines from the end while they are blank. -/
def trimTrailingEmptyLines : List Str → List Str
  | [] => []
  | l :: rest =>
    let r := trimTrailingEmptyLines rest
    if r = [] ∧ trimChars l = [] then [] else l :: r

structure ManagedBlockExtraction where
  managedEntries : List Str
  linesWithoutBlock : List Str
deriving Repr, DecidableEq

/-- A line at which the managed block's entry run stops: blank or comment. -/
def isBlockBoundary (l : Str) : Bool :=
  trimChars l = [] || startsWithChar '#' l

/-- The `findIndex` part of `extractManagedBlock`: split the line list at
the first occurrence of the marker line. -/
def splitAtMarker : List Str → Option (List Str × List Str)
  | [] => none
  | l :: rest =>
    if l = MANAGED_COMMENT then some ([], rest)
    else
      match splitAtMarker rest with
      | none => none
      | some (b, a) => some (l :: b, a)

/-- The `while` loop of `extractManagedBlock`: length of the run of
non-boundary lines after the marker. -/
def blockRunLength : List Str → Nat
  | [] => 0
  | l :: rest => if isBlockBoundary l then 0 else blockRunLength rest + 1

/-- Skip a single separating blank line when removing the block. -/
def dropSeparatingBlank (ls : List Str) : List Str :=
  match ls with
  | l :: rest => if trimChars l = [] then rest else ls
  | [] => []

/-- `extractManagedBlock`: locate the first marker line, collect the
contiguous run of entries after it (stopping at the first blank or comment
line or end of file, as the `while` loop does), skip one separating blank
line, and return the entries together with the remaining lines. -/
def extractManagedBlock (content : Str) : ManagedBlockExtraction :=
  match splitAtMarker (splitLines content) with
  | none =>
    { managedEntries := []
      linesWithoutBlock := trimTrailingEmptyLines (splitLines content) }
  | some (before, afterMarker) =>
    { managedEntries :=
        (afterMarker.takeWhile (fun l => !isBlockBoundary l)).filter
          (fun l => trimChars l ≠ [])
      linesWithoutBlock :=
        trimTrailingEmptyLines
          (before ++ dropSeparatingBlank
            (afterMarker.drop
              (afterMarker.takeWhile (fun l => !isBlockBoundary l)).length)) }

/-- The `resultLines` assembled by `buildGitignoreContent` before joining. -/
def buildLines (linesWithoutBlock managedEntries : List Str) : List Str :=
  let resultLines := trimTrailingEmptyLines linesWithoutBlock
  if managedEntries ≠ [] then
    (if resultLines ≠ [] ∧ resultLines.getLast? ≠ some [] then
      resultLines ++ [[]]
    else resultLines) ++ MANAGED_COMMENT :: managedEntries
  else resultLines

/-- `resultLines.join('\n')` plus the trailing-newline rule. -/
def linesToContent (ls : List Str) : Str :=
  let result := List.intercalate ['\n'] ls
  if result ≠ [] then result ++ ['\n'] else []

def buildGitignoreContent (linesWithoutBlock managedEntries : List Str) : Str :=
  linesToContent (buildLines linesWithoutBlock managedEntries)

def arraysEqual (left right : List Str) : Bool :=
  left = right

/-- The normalized, deduplicated entry set computed by `syncGitignore`. -/
def gitignoreUniqueEntries (entries : List Str) : List Str :=
  (uniqueNormalized (entries.map normalizeGitignoreEntry)).filter (fun e => e ≠ [])

/-- The normalized entries of the managed block currently on disk
(`managedEntries.map(normalizeGitignoreEntry).filter(Boolean)`). -/
def gitignoreExistingBlock (current : Str) : List Str :=
  ((extractManagedBlock current).managedEntries.map normalizeGitignoreEntry).filter
    (fun e => e ≠ [])

/-- Modelled from the spec's words (C5): the lines of a file that lie
outside the managed block and its at-most-one adjoining blank separator
line — everything except the marker line, its contiguous entry run, at most
one blank line immediately before the marker and at most one blank line
immediately after the run.  When no marker is present every line of the
file lies outside the block. -/
def linesOutsideBlock (content : Str) : List Str :=
  match splitAtMarker (splitLines content) with
  | none => splitLines content
  | some pair =>
      (if pair.1.getLast? = some [] then pair.1.dropLast else pair.1) ++
        dropSeparatingBlank (pair.2.drop (blockRunLength pair.2))

/-- The escape condition named by the spec (C6): the `..` segments of the
raw path resolve outside the root directory — the root's normalized
segments are not a prefix of the resolution's normalized segments. -/
def escapesRoot (rootDir raw : Str) : Prop :=
  ¬ (normalizeSegs (splitChar '/' rootDir) <+:
      normalizeSegs (splitChar '/' rootDir ++ splitChar '/' raw))

instance (rootDir raw : Str) : Decidable (escapesRoot rootDir raw) := by
  unfold escapesRoot
  infer_instance

/-- `syncGitignore`.  `Array.prototype.includes` is `seenMem` membership. -/
def syncGitignore (gitignorePath : Str) (entries : List Str) (dryRun : Bool)
    (fs : FS) : GitignoreResult × FS :=
  if gitignoreUniqueEntries entries = [] then
    ({ path := gitignorePath, updated := false, added := [], removed := []
       skipped := true }, fs)
  else if arraysEqual (gitignoreExistingBlock ((fsRead fs gitignorePath).getD []))
      (gitignoreUniqueEntries entries) then
    ({ path := gitignorePath, updated := false, added := [], removed := []
       skipped := false }, fs)
  else
    ({ path := gitignorePath
       updated := true
       added := (gitignoreUniqueEntries entries).filter
         (fun e => !seenMem (gitignoreExistingBlock ((fsRead fs gitignorePath).getD [])) e)
       removed := (gitignoreExistingBlock ((fsRead fs gitignorePath).getD [])).filter
         (fun e => !seenMem (gitignoreUniqueEntries entries) e)
       skipped := false },
     if dryRun then fs
     else fsWrite fs gitignorePath
       (buildGitignoreContent
         (extractManagedBlock ((fsRead fs gitignorePath).getD [])).linesWithoutBlock
         (gitignoreUniqueEntries entries)))

/-! ## Entry point (`syncConfigs`) -/

/-- The entries handed to the ignore-block manager:
`normalizedFiles.map(f => f.gitignoreEntry).filter(Boolean)` (JS truthiness
drops both `null` and the empty string). -/
def gitignoreEntriesOf (nfs : List NormalizedConfigFile) : List Str :=
  ((nfs.map (fun f => f.gitignoreEntry)).filterMap id).filter (fun e => e ≠ [])

/-- `syncConfigs`: resolve the root, normalize the declared files, run the
file reconciler over each in order, then the ignore-block manager.  `cwd`
models `process.cwd()` (an absolute path).  The returned file system is the
input one when the call throws. -/
def syncConfigs (cwd : Str) (files : ConfigMap) (options : SyncOptions)
    (fs : FS) : Except String SyncResult × FS :=
  match normalizeFiles files (pathResolve cwd (options.rootDir.getD cwd)) with
  | .error e => (.error e, fs)
  | .ok normalizedFiles =>
    (.ok { rootDir := pathResolve cwd (options.rootDir.getD cwd)
           files := (runFiles (options.dryRun.getD false) normalizedFiles fs).1
           gitignore :=
             (syncGitignore
               (resolveGitignorePath (pathResolve cwd (options.rootDir.getD cwd))
                 options.gitignorePath)
               (gitignoreEntriesOf normalizedFiles) (options.dryRun.getD false)
               (runFiles (options.dryRun.getD false) normalizedFiles fs).2).1 },
     (syncGitignore
       (resolveGitignorePath (pathResolve cwd (options.rootDir.getD cwd))
         options.gitignorePath)
       (gitignoreEntriesOf normalizedFiles) (options.dryRun.getD false)
       (runFiles (options.dryRun.getD false) normalizedFiles fs).2).2)

/-! ## Spec-modelled sentinel variant

The staged `src/src/index.ts` has no `sentinel` field, while the spec
(§2, §4.1) and the staged CLI (`src/src/cli.ts`, which reads the
`warning`/`managed` fields of its reconciler's records) require one.  The
definitions below, all suffixed `S`, model that reconciler from the spec's
words; everything not concerning the sentinel mirrors the staged source. -/

/-- Modelled from the spec: a target declaration carrying the optional
write-protection `sentinel` of §2/§4.1. -/
structure ConfigEntryS where
  contents : Str
  gitignore : Option Bool := none
  mode : Option Nat := none
  sentinel : Option Str := none
deriving Repr, DecidableEq

abbrev ConfigMapS := List (Str × ConfigEntryS)

/-- Modelled from the spec: the fully-resolved target record (§8,
"explicit, fully-populated configuration record after normalization"). -/
structure NormalizedConfigFileS where
  relativePath : Str
  absolutePath : Str
  contents : Str
  gitignoreEntry : Option Str
  mode : Option Nat
  sentinel : Option Str
deriving Repr, DecidableEq

/-- Modelled from the spec: the per-file outcome record with the `warning`
of §4.1 (carried by the CLI's `file.warning`). -/
structure FileSyncResultS where
  path : Str
  absolutePath : Str
  action : FileAction
  skipped : Bool
  gitignored : Bool
  warning : Bool
deriving Repr, DecidableEq

structure SyncResultS where
  rootDir : Str
  files : List FileSyncResultS
  gitignore : GitignoreResult
deriving Repr, DecidableEq

/-- JS `String.prototype.includes`, as a Bool over the character lists. -/
def isSubstring (needle hay : Str) : Bool := decide (List.IsInfix needle hay)

/-- Modelled from the spec (§4.1): "`desiredContent` must contain the
sentinel substring". -/
def sentinelOk (e : ConfigEntryS) : Bool :=
  match e.sentinel with
  | none => true
  | some s => isSubstring s e.contents

/-- Modelled from the spec: normalization with the sentinel-containment
validation added to the staged normalizer's checks (§3.1, §4.1). -/
def normalizeFilesGoS (rootDir : Str) :
    List (Str × ConfigEntryS) → List Str →
      Except String (List NormalizedConfigFileS)
  | [], _ => .ok []
  | (rawPath, entry) :: rest, seen =>
    match computePaths rootDir rawPath with
    | .error e => .error e
    | .ok pair =>
      if seenMem seen pair.1 then
        .error "Duplicate config file definition"
      else if sentinelOk entry = false then
        .error "Sentinel must be present in the file contents"
      else
        match normalizeFilesGoS rootDir rest (pair.1 :: seen) with
        | .error e => .error e
        | .ok tail =>
          .ok ({ relativePath := pair.1
                 absolutePath := pair.2
                 contents := entry.contents
                 gitignoreEntry :=
                   if entry.gitignore = some false then none else some pair.1
                 mode := entry.mode
                 sentinel := entry.sentinel } :: tail)

def normalizeFilesS (files : ConfigMapS) (rootDir : Str) :
    Except String (List NormalizedConfigFileS) :=
  normalizeFilesGoS rootDir files []

/-- Modelled from the spec: the §4.1 per-file algorithm with sentinel
gating; yields the action, whether a warning is carried, and the file
system after the step. -/
def fileOutcomeS (f : NormalizedConfigFileS) (dryRun : Bool) (fs : FS) :
    FileAction × Bool × FS :=
  match fsRead fs f.absolutePath with
  | none =>
    (.created, false,
      if dryRun then fs else fsWrite fs f.absolutePath f.contents)
  | some cur =>
    if cur = f.contents then (.unchanged, false, fs)
    else
      match f.sentinel with
      | none =>
        (.updated, false,
          if dryRun then fs else fsWrite fs f.absolutePath f.contents)
      | some s =>
        if isSubstring s cur then
          (.updated, false,
            if dryRun then fs else fsWrite fs f.absolutePath f.contents)
        else (.unchanged, true, fs)

/-- Modelled from the spec: the reconciler loop; besides the records and
the file system it accumulates the tracked paths handed to the ignore
manager, from which a warned file "must be excluded … for this
invocation" (§4.1). -/
def runFilesS (dryRun : Bool) :
    List NormalizedConfigFileS → FS → List FileSyncResultS × List Str × FS
  | [], fs => ([], [], fs)
  | f :: rest, fs =>
    ({ path := f.relativePath
       absolutePath := f.absolutePath
       action := (fileOutcomeS f dryRun fs).1
       skipped := decide ((fileOutcomeS f dryRun fs).1 = FileAction.unchanged)
       gitignored := decide (f.gitignoreEntry.getD [] ≠ [] ∧
         (fileOutcomeS f dryRun fs).2.1 = false)
       warning := (fileOutcomeS f dryRun fs).2.1 } ::
        (runFilesS dryRun rest (fileOutcomeS f dryRun fs).2.2).1,
     (if (fileOutcomeS f dryRun fs).2.1 = false ∧
          f.gitignoreEntry.getD [] ≠ []
        then [f.gitignoreEntry.getD []] else []) ++
       (runFilesS dryRun rest (fileOutcomeS f dryRun fs).2.2).2.1,
     (runFilesS dryRun rest (fileOutcomeS f dryRun fs).2.2).2.2)

/-- Modelled from the spec: the entry point over the sentinel-aware
reconciler, with the staged ignore manager run second (§5: "the two-phase
ordering (files, then ignore block) is a correctness requirement …
because ignore tracking depends on final per-file management status"). -/
def syncConfigsS (cwd : Str) (files : ConfigMapS) (options : SyncOptions)
    (fs : FS) : Except String SyncResultS × FS :=
  match normalizeFilesS files (pathResolve cwd (options.rootDir.getD cwd)) with
  | .error e => (.error e, fs)
  | .ok nfs =>
    (.ok { rootDir := pathResolve cwd (options.rootDir.getD cwd)
           files := (runFilesS (options.dryRun.getD false) nfs fs).1
           gitignore := (syncGitignore
             (resolveGitignorePath (pathResolve cwd (options.rootDir.getD cwd))
               options.gitignorePath)
             (runFilesS (options.dryRun.getD false) nfs fs).2.1
             (options.dryRun.getD false)
             (runFilesS (options.dryRun.getD false) nfs fs).2.2).1 },
     (syncGitignore
       (resolveGitignorePath (pathResolve cwd (options.rootDir.getD cwd))
         options.gitignorePath)
       (runFilesS (options.dryRun.getD false) nfs fs).2.1
       (options.dryRun.getD false)
       (runFilesS (options.dryRun.getD false) nfs fs).2.2).2)

/-! ## Lemmas: `List.intercalate` unfoldings -/

theorem intercalate_nil' (sep : Str) : List.intercalate sep ([] : List Str) = [] := by
  simp [List.intercalate]

theorem intercalate_single (sep : Str) (x : Str) : List.intercalate sep [x] = x := by
  simp [List.intercalate]

theorem intercalate_cons₂ (sep : Str) (x y : Str) (rest : List Str) :
    List.intercalate sep (x :: y :: rest) = x ++ sep ++ List.intercalate sep (y :: rest) := by
  simp [List.intercalate]

/-! ## Lemmas: `splitChar` -/

theorem splitChar_ne_nil (sep : Char) (l : Str) : splitChar sep l ≠ [] := by
  induction l with
  | nil => simp [splitChar]
  | cons c rest ih =>
    simp only [splitChar]
    cases h : splitChar sep rest with
    | nil => simp
    | cons p ps => by_cases hc : c = sep <;> simp [hc]

theorem splitChar_cons_sep (sep : Char) (l : Str) :
    splitChar sep (sep :: l) = [] :: splitChar sep l := by
  simp only [splitChar]
  cases h : splitChar sep l with
  | nil => exact absurd h (splitChar_ne_nil sep l)
  | cons p ps => simp

theorem splitChar_cons_ne (sep c : Char) (l : Str) (hc : c ≠ sep) :
    splitChar sep (c :: l) =
      (c :: (splitChar sep l).headI) :: (splitChar sep l).tail := by
  simp only [splitChar]
  cases h : splitChar sep l with
  | nil => exact absurd h (splitChar_ne_nil sep l)
  | cons p ps => simp [hc]

theorem splitChar_sep_not_mem (sep : Char) (l : Str) :
    ∀ p ∈ splitChar sep l, sep ∉ p := by
  induction l with
  | nil => intro p hp; simp [splitChar] at hp; simp [hp]
  | cons c rest ih =>
    intro p hp
    by_cases hc : c = sep
    · subst hc
      rw [splitChar_cons_sep] at hp
      rcases List.mem_cons.mp hp with h1 | h1
      · subst h1; simp
      · exact ih p h1
    · rw [splitChar_cons_ne sep c rest hc] at hp
      cases h : splitChar sep rest with
      | nil => exact absurd h (splitChar_ne_nil sep rest)
      | cons q qs =>
        rw [h] at hp
        simp only [List.headI, List.tail] at hp
        have ihq : sep ∉ q := ih q (by rw [h]; exact List.mem_cons_self q qs)
        rcases List.mem_cons.mp hp with h1 | h1
        · subst h1
          intro hmem
          rcases List.mem_cons.mp hmem with h2 | h2
          · exact hc h2.symm
          · exact ihq h2
        · exact ih p (by rw [h]; exact List.mem_cons_of_mem q h1)

theorem intercalate_splitChar (sep : Char) (l : Str) :
    List.intercalate [sep] (splitChar sep l) = l := by
  induction l with
  | nil => simp [splitChar, intercalate_single]
  | cons c rest ih =>
    by_cases hc : c = sep
    · subst hc
      rw [splitChar_cons_sep]
      cases h : splitChar c rest with
      | nil => exact absurd h (splitChar_ne_nil c rest)
      | cons p ps =>
        rw [h] at ih
        rw [intercalate_cons₂, ih]
        simp
    · rw [splitChar_cons_ne sep c rest hc]
      cases h : splitChar sep rest with
      | nil => exact absurd h (splitChar_ne_nil sep rest)
      | cons p ps =>
        cases ps with
        | nil =>
          simp only [List.headI, List.tail]
          rw [intercalate_single]
          rw [h, intercalate_single] at ih
          simp [ih]
        | cons q qs =>
          simp only [List.headI, List.tail]
          rw [intercalate_cons₂]
          rw [h, intercalate_cons₂] at ih
          have hsplit : (c :: p) ++ [sep] ++ List.intercalate [sep] (q :: qs)
              = c :: (p ++ [sep] ++ List.intercalate [sep] (q :: qs)) := by simp
          rw [hsplit, ih]

theorem splitChar_append_sep (sep : Char) (p : Str) (t : Str) (hp : sep ∉ p) :
    splitChar sep (p ++ sep :: t) = p :: splitChar sep t := by
  induction p with
  | nil => simpa using splitChar_cons_sep sep t
  | cons c cs ih =>
    have hc : c ≠ sep := fun h => hp (h ▸ List.mem_cons_self c cs)
    have hcs : sep ∉ cs := fun h => hp (List.mem_cons_of_mem _ h)
    rw [List.cons_append, splitChar_cons_ne sep c _ hc, ih hcs]
    simp

theorem splitChar_no_sep (sep : Char) (p : Str) (hp : sep ∉ p) :
    splitChar sep p = [p] := by
  induction p with
  | nil => simp [splitChar]
  | cons c cs ih =>
    have hc : c ≠ sep := fun h => hp (h ▸ List.mem_cons_self c cs)
    have hcs : sep ∉ cs := fun h => hp (List.mem_cons_of_mem _ h)
    rw [splitChar_cons_ne sep c _ hc, ih hcs]
    simp

theorem splitChar_intercalate (sep : Char) (ps : List Str) (h : ps ≠ [])
    (hf : ∀ p ∈ ps, sep ∉ p) :
    splitChar sep (List.intercalate [sep] ps) = ps := by
  induction ps with
  | nil => exact absurd rfl h
  | cons p rest ih =>
    cases rest with
    | nil =>
      rw [intercalate_single]
      exact splitChar_no_sep sep p (hf p (.head _))
    | cons q qs =>
      rw [intercalate_cons₂]
      have : p ++ [sep] ++ List.intercalate [sep] (q :: qs)
          = p ++ sep :: List.intercalate [sep] (q :: qs) := by simp
      rw [this, splitChar_append_sep sep p _ (hf p (.head _)),
        ih (by simp) (fun x hx => hf x (.tail _ hx))]

/-! ## Lemmas: `trimChars` -/

theorem length_dropWhile_le (p : Char → Bool) (l : Str) :
    (l.dropWhile p).length ≤ l.length := by
  induction l with
  | nil => simp
  | cons c rest ih =>
    by_cases hc : p c
    · rw [List.dropWhile_cons_of_pos hc]
      exact le_trans ih (by simp)
    · rw [List.dropWhile_cons_of_neg hc]

theorem dropWhile_eq_self_of_length {p : Char → Bool} {l : Str}
    (h : (l.dropWhile p).length = l.length) : l.dropWhile p = l := by
  induction l with
  | nil => simp
  | cons c rest ih =>
    by_cases hc : p c
    · rw [List.dropWhile_cons_of_pos hc] at h ⊢
      have hle := length_dropWhile_le p rest
      simp only [List.length_cons] at h
      exfalso
      omega
    · rw [List.dropWhile_cons_of_neg hc]

theorem length_trimChars_le (l : Str) : (trimChars l).length ≤ l.length := by
  unfold trimChars
  have h1 := length_dropWhile_le isJsWhitespace l
  have h2 := length_dropWhile_le isJsWhitespace (l.dropWhile isJsWhitespace).reverse
  simp only [List.length_reverse] at *
  omega

theorem trimChars_eq_self_of_length {l : Str}
    (h : (trimChars l).length = l.length) : trimChars l = l := by
  have h1 := length_dropWhile_le isJsWhitespace l
  have h2 := length_dropWhile_le isJsWhitespace (l.dropWhile isJsWhitespace).reverse
  unfold trimChars at h ⊢
  simp only [List.length_reverse] at h h2
  have e1 : (l.dropWhile isJsWhitespace).length = l.length := by omega
  have e1' : l.dropWhile isJsWhitespace = l := dropWhile_eq_self_of_length e1
  rw [e1'] at h h2 ⊢
  have e2' : l.reverse.dropWhile isJsWhitespace = l.reverse :=
    dropWhile_eq_self_of_length (by simp only [List.length_reverse]; omega)
  rw [e2', List.reverse_reverse]

/-- A self-trimmed string has no leading or trailing whitespace. -/
theorem trimChars_eq_self_parts {l : Str} (h : trimChars l = l) :
    l.dropWhile isJsWhitespace = l ∧ l.reverse.dropWhile isJsWhitespace = l.reverse := by
  have h1 := length_dropWhile_le isJsWhitespace l
  have h2 := length_dropWhile_le isJsWhitespace (l.dropWhile isJsWhitespace).reverse
  have hlen : (trimChars l).length = l.length := by rw [h]
  unfold trimChars at hlen
  simp only [List.length_reverse] at hlen h2
  have e1' : l.dropWhile isJsWhitespace = l := dropWhile_eq_self_of_length (by omega)
  refine ⟨e1', ?_⟩
  rw [e1'] at hlen
  exact dropWhile_eq_self_of_length (by simp only [List.length_reverse]; omega)

theorem dropWhile_eq_self_head {p : Char → Bool} {l : Str}
    (h : l.dropWhile p = l) {c : Char} {rest : Str} (hl : l = c :: rest) : ¬ p c := by
  intro hc
  subst hl
  rw [List.dropWhile_cons_of_pos hc] at h
  have := length_dropWhile_le p rest
  have hlen := congrArg List.length h
  simp at hlen
  omega

theorem trimChars_getLast_not_ws {l : Str} (h : trimChars l = l) {c : Char}
    (hl : l.getLast? = some c) : ¬ isJsWhitespace c := by
  have h2 := (trimChars_eq_self_parts h).2
  have hrev : l.reverse = c :: l.dropLast.reverse := by
    cases l using List.reverseRecOn with
    | nil => simp at hl
    | append_singleton xs x =>
      rw [List.getLast?_concat] at hl
      cases hl
      simp
  exact dropWhile_eq_self_head h2 hrev

/-! ## Lemmas: `splitLinesCore` and `splitLines` -/

theorem slc_newline (rest : Str) :
    splitLinesCore ('\n' :: rest) = [] :: splitLinesCore rest := by
  cases rest <;> simp [splitLinesCore]

theorem slc_crlf (rest : Str) :
    splitLinesCore ('\r' :: '\n' :: rest) = [] :: splitLinesCore rest := by
  simp [splitLinesCore]

theorem slc_ne_nil (l : Str) : splitLinesCore l ≠ [] := by
  induction l using splitLinesCore.induct with
  | case1 => simp [splitLinesCore]
  | case2 => simp [splitLinesCore]
  | case3 c hc => simp [splitLinesCore, hc]
  | case4 d rest ih => simp [splitLinesCore]
  | case5 c d rest hc hcd ih =>
    obtain ⟨hc', hd⟩ := hcd
    subst hc'; subst hd
    rw [slc_crlf]
    simp
  | case6 c d rest hc hcd hnil ih => exact absurd hnil ih
  | case7 c d rest hc hcd p ps heq ih =>
    simp only [splitLinesCore, if_neg hc, if_neg hcd, heq]
    simp

theorem slc_other (c d : Char) (t : Str) (hc : c ≠ '\n')
    (h2 : ¬(c = '\r' ∧ d = '\n')) :
    splitLinesCore (c :: d :: t) =
      (c :: (splitLinesCore (d :: t)).headI) :: (splitLinesCore (d :: t)).tail := by
  simp only [splitLinesCore, if_neg hc, if_neg h2]
  cases h : splitLinesCore (d :: t) with
  | nil => exact absurd h (slc_ne_nil (d :: t))
  | cons p ps => simp

theorem slc_single (c : Char) (hc : c ≠ '\n') : splitLinesCore [c] = [[c]] := by
  simp [splitLinesCore, hc]

theorem slc_no_newline (p : Str) (hp : '\n' ∉ p) : splitLinesCore p = [p] := by
  induction p with
  | nil => simp [splitLinesCore]
  | cons c cs ih =>
    have hc : c ≠ '\n' := fun h => hp (h ▸ List.mem_cons_self c cs)
    have hcs : '\n' ∉ cs := fun h => hp (List.mem_cons_of_mem _ h)
    cases cs with
    | nil => exact slc_single c hc
    | cons d t =>
      have hd : d ≠ '\n' := fun h => hcs (h ▸ List.mem_cons_self d t)
      rw [slc_other c d t hc (fun h => hd h.2), ih hcs]
      simp

theorem slc_append_newline (p t : Str) (hp : '\n' ∉ p)
    (hr : p.getLast? ≠ some '\r') :
    splitLinesCore (p ++ '\n' :: t) = p :: splitLinesCore t := by
  induction p with
  | nil => simpa using slc_newline t
  | cons c cs ih =>
    have hc : c ≠ '\n' := fun h => hp (h ▸ List.mem_cons_self c cs)
    have hcs : '\n' ∉ cs := fun h => hp (List.mem_cons_of_mem _ h)
    cases cs with
    | nil =>
      have hcr : c ≠ '\r' := by
        intro h
        exact hr (by simp [h])
      rw [List.singleton_append, slc_other c '\n' t hc (fun h => hcr h.1),
        slc_newline]
      simp
    | cons d t' =>
      have hd : d ≠ '\n' := fun h => hcs (h ▸ List.mem_cons_self d t')
      have hlast : (d :: t').getLast? ≠ some '\r' := by
        intro h
        apply hr
        rw [List.getLast?_cons_cons]
        exact h
      have ih' : splitLinesCore (d :: (t' ++ '\n' :: t)) = (d :: t') :: splitLinesCore t :=
        ih hcs hlast
      show splitLinesCore (c :: d :: (t' ++ '\n' :: t)) = _
      rw [slc_other c d (t' ++ '\n' :: t) hc (fun h => hd h.2), ih']
      simp

theorem slc_join (L : List Str) (hL : L ≠ [])
    (hgood : ∀ p ∈ L, '\n' ∉ p ∧ p.getLast? ≠ some '\r') :
    splitLinesCore (List.intercalate ['\n'] L ++ ['\n']) = L ++ [[]] := by
  induction L with
  | nil => exact absurd rfl hL
  | cons p rest ih =>
    cases rest with
    | nil =>
      rw [intercalate_single]
      have h := hgood p (List.mem_cons_self p [])
      rw [show p ++ ['\n'] = p ++ '\n' :: [] from rfl,
        slc_append_newline p [] h.1 h.2]
      simp [splitLinesCore]
    | cons q qs =>
      rw [intercalate_cons₂]
      have h := hgood p (List.mem_cons_self p _)
      have heq : (p ++ ['\n'] ++ List.intercalate ['\n'] (q :: qs)) ++ ['\n']
          = p ++ '\n' :: (List.intercalate ['\n'] (q :: qs) ++ ['\n']) := by simp
      rw [heq, slc_append_newline p _ h.1 h.2,
        ih (by simp) (fun x hx => hgood x (List.mem_cons_of_mem p hx))]
      simp

theorem splitLines_join (L : List Str) (hL : L ≠ [])
    (hgood : ∀ p ∈ L, '\n' ∉ p ∧ p.getLast? ≠ some '\r') :
    splitLines (List.intercalate ['\n'] L ++ ['\n']) = L := by
  unfold splitLines
  have hne : List.intercalate ['\n'] L ++ ['\n'] ≠ [] := by simp
  rw [if_neg hne, slc_join L hL hgood]
  have hlast : (L ++ [([] : Str)]).getLast? = some [] := List.getLast?_concat L
  rw [if_pos ⟨by simp, hlast⟩]
  simp

theorem slc_pieces_no_newline (l : Str) : ∀ p ∈ splitLinesCore l, '\n' ∉ p := by
  induction l using splitLinesCore.induct with
  | case1 => intro p hp; simp [splitLinesCore] at hp; simp [hp]
  | case2 =>
    intro p hp
    simp [splitLinesCore] at hp
    simp [hp]
  | case3 c hc =>
    intro p hp
    rw [slc_single c hc] at hp
    simp at hp
    subst hp
    simpa using fun h => hc h.symm
  | case4 d rest ih =>
    intro p hp
    rw [slc_newline] at hp
    rcases List.mem_cons.mp hp with h1 | h1
    · simp [h1]
    · exact ih p h1
  | case5 c d rest hc hcd ih =>
    intro p hp
    obtain ⟨hc', hd⟩ := hcd
    subst hc'; subst hd
    rw [slc_crlf] at hp
    rcases List.mem_cons.mp hp with h1 | h1
    · simp [h1]
    · exact ih p h1
  | case6 c d rest hc hcd hnil ih => exact absurd hnil (slc_ne_nil (d :: rest))
  | case7 c d rest hc hcd q qs heq ih =>
    intro p hp
    rw [slc_other c d rest hc hcd, heq] at hp
    simp only [List.headI, List.tail] at hp
    rcases List.mem_cons.mp hp with h1 | h1
    · subst h1
      intro hmem
      rcases List.mem_cons.mp hmem with h2 | h2
      · exact hc h2.symm
      · exact ih q (by rw [heq]; exact List.mem_cons_self q qs) h2
    · exact ih p (by rw [heq]; exact List.mem_cons_of_mem q h1)

theorem splitLines_pieces_no_newline (content : Str) :
    ∀ p ∈ splitLines content, '\n' ∉ p := by
  intro p hp
  unfold splitLines at hp
  by_cases h : content = []
  · simp [h] at hp
  · rw [if_neg h] at hp
    split at hp
    · exact slc_pieces_no_newline content p (List.dropLast_subset _ hp)
    · exact slc_pieces_no_newline content p hp

/-! ## Lemmas: `trimTrailingEmptyLines` -/

theorem prefix_trimTrailing (l : List Str) : trimTrailingEmptyLines l <+: l := by
  induction l with
  | nil => simp [trimTrailingEmptyLines]
  | cons x rest ih =>
    simp only [trimTrailingEmptyLines]
    split
    · exact List.nil_prefix
    · exact List.cons_prefix_cons.mpr ⟨rfl, ih⟩

theorem trimTrailing_subset (l : List Str) : ∀ x ∈ trimTrailingEmptyLines l, x ∈ l :=
  fun _ hx => (prefix_trimTrailing l).subset hx

theorem trimTrailing_getLast (l : List Str) (x : Str)
    (h : (trimTrailingEmptyLines l).getLast? = some x) : trimChars x ≠ [] := by
  induction l with
  | nil => simp [trimTrailingEmptyLines] at h
  | cons y rest ih =>
    simp only [trimTrailingEmptyLines] at h
    split at h
    · simp at h
    · rename_i hcond
      cases hr : trimTrailingEmptyLines rest with
      | nil =>
        rw [hr] at h
        simp at h
        subst h
        intro hblank
        exact hcond ⟨hr, hblank⟩
      | cons z zs =>
        rw [hr] at h
        rw [List.getLast?_cons_cons] at h
        exact ih (by rw [hr]; exact h)

theorem trimTrailing_eq_self (l : List Str)
    (h : l = [] ∨ ∃ x, l.getLast? = some x ∧ trimChars x ≠ []) :
    trimTrailingEmptyLines l = l := by
  induction l with
  | nil => simp [trimTrailingEmptyLines]
  | cons y rest ih =>
    rcases h with h | ⟨x, hx, hxne⟩
    · exact absurd h (by simp)
    · simp only [trimTrailingEmptyLines]
      cases hr : rest with
      | nil =>
        subst hr
        simp at hx
        subst hx
        simp [trimTrailingEmptyLines, hxne]
      | cons z zs =>
        rw [← hr]
        have hrest : trimTrailingEmptyLines rest = rest := by
          apply ih
          right
          refine ⟨x, ?_, hxne⟩
          rw [hr] at hx ⊢
          rwa [List.getLast?_cons_cons] at hx
        rw [hrest]
        have : rest ≠ [] := by rw [hr]; simp
        simp [this]

theorem trimTrailing_idem (l : List Str) :
    trimTrailingEmptyLines (trimTrailingEmptyLines l) = trimTrailingEmptyLines l := by
  apply trimTrailing_eq_self
  cases hl : (trimTrailingEmptyLines l).getLast? with
  | none => left; exact List.getLast?_eq_none_iff.mp hl
  | some x => right; exact ⟨x, rfl, trimTrailing_getLast l x hl⟩

theorem trimTrailing_append_blank (a : List Str) (b : Str) (hb : trimChars b = []) :
    trimTrailingEmptyLines (a ++ [b]) = trimTrailingEmptyLines a := by
  induction a with
  | nil => simp [trimTrailingEmptyLines, hb]
  | cons y rest ih =>
    simp only [List.cons_append, trimTrailingEmptyLines, List.append_eq, ih]

/-! ## Lemmas: segments and path arithmetic -/

/-- A clean path segment: what `normalizeSegs` produces from '/'-free input
segments.  -/
def cleanSeg (s : Str) : Prop :=
  s ≠ [] ∧ s ≠ ['.'] ∧ s ≠ ['.', '.'] ∧ '/' ∉ s

instance : DecidablePred cleanSeg := fun s => by unfold cleanSeg; infer_instance

theorem segStep_clean {acc : List Str} {seg : Str}
    (hacc : ∀ x ∈ acc, cleanSeg x) (hseg : '/' ∉ seg) :
    ∀ x ∈ segStep acc seg, cleanSeg x := by
  unfold segStep
  split
  · exact hacc
  · split
    · exact fun x hx => hacc x (List.dropLast_subset _ hx)
    · rename_i h1 h2
      intro x hx
      rcases List.mem_append.mp hx with h | h
      · exact hacc x h
      · simp only [List.mem_singleton] at h
        subst h
        simp only [Bool.or_eq_true, decide_eq_true_eq, not_or] at h1
        exact ⟨h1.1, h1.2, h2, hseg⟩

theorem foldl_segStep_clean (segs : List Str) (hsegs : ∀ s ∈ segs, '/' ∉ s) :
    ∀ acc, (∀ x ∈ acc, cleanSeg x) → ∀ x ∈ List.foldl segStep acc segs, cleanSeg x := by
  induction segs with
  | nil => intro acc hacc; simpa using hacc
  | cons s rest ih =>
    intro acc hacc
    simp only [List.foldl_cons]
    exact ih (fun t ht => hsegs t (List.mem_cons_of_mem s ht)) _
      (segStep_clean hacc (hsegs s (List.mem_cons_self s rest)))

theorem normalizeSegs_clean (segs : List Str) (hsegs : ∀ s ∈ segs, '/' ∉ s) :
    ∀ x ∈ normalizeSegs segs, cleanSeg x :=
  foldl_segStep_clean segs hsegs [] (by simp)

theorem segStep_of_clean (acc : List Str) {s : Str} (hs : cleanSeg s) :
    segStep acc s = acc ++ [s] := by
  simp [segStep, hs.1, hs.2.1, hs.2.2.1]

theorem segStep_nil_seg (acc : List Str) : segStep acc [] = acc := by
  simp [segStep]

theorem foldl_segStep_of_clean (b : List Str) (hb : ∀ s ∈ b, cleanSeg s) :
    ∀ acc, List.foldl segStep acc b = acc ++ b := by
  induction b with
  | nil => intro acc; simp
  | cons s rest ih =>
    intro acc
    simp only [List.foldl_cons, segStep_of_clean acc (hb s (List.mem_cons_self s rest))]
    rw [ih (fun t ht => hb t (List.mem_cons_of_mem s ht))]
    simp

theorem normalizeSegs_of_clean (b : List Str) (hb : ∀ s ∈ b, cleanSeg s) :
    normalizeSegs b = b := by
  unfold normalizeSegs
  rw [foldl_segStep_of_clean b hb []]
  simp

theorem normalizeSegs_join_prepend (R : List Str) (hR : ∀ x ∈ R, cleanSeg x)
    (X : List Str) :
    normalizeSegs (splitChar '/' (joinAbs R) ++ X) = List.foldl segStep R X := by
  unfold joinAbs normalizeSegs
  rw [splitChar_cons_sep]
  by_cases hR0 : R = []
  · subst hR0
    simp only [intercalate_nil', splitChar]
    rw [show (([] : Str) :: [([] : Str)]) ++ X = [] :: [] :: X from rfl]
    simp [List.foldl_cons, segStep_nil_seg]
  · rw [splitChar_intercalate '/' R hR0 (fun p hp => (hR p hp).2.2.2)]
    rw [show (([] : Str) :: R) ++ X = [] :: (R ++ X) from rfl]
    simp only [List.foldl_cons, segStep_nil_seg]
    rw [List.foldl_append, foldl_segStep_of_clean R hR []]
    simp

theorem pathResolve_not_abs (R : List Str) (hR : ∀ x ∈ R, cleanSeg x)
    (raw : Str) (hraw : isAbsolute raw = false) :
    pathResolve (joinAbs R) raw = joinAbs (List.foldl segStep R (splitChar '/' raw)) := by
  unfold pathResolve
  rw [hraw]
  simp only [Bool.false_eq_true, if_false]
  exact congrArg joinAbs (normalizeSegs_join_prepend R hR (splitChar '/' raw))

theorem pathResolve_clean (base p : Str) :
    ∀ x ∈ normalizeSegs
      (if isAbsolute p then splitChar '/' p else splitChar '/' base ++ splitChar '/' p),
      cleanSeg x := by
  apply normalizeSegs_clean
  intro s hs
  split at hs
  · exact splitChar_sep_not_mem '/' p s hs
  · rcases List.mem_append.mp hs with h | h
    · exact splitChar_sep_not_mem '/' base s h
    · exact splitChar_sep_not_mem '/' p s h

theorem commonLen_self (l : List Str) : commonLen l l = l.length := by
  induction l with
  | nil => simp [commonLen]
  | cons a as ih => simp [commonLen, ih]

theorem commonLen_le_left (a b : List Str) : commonLen a b ≤ a.length := by
  induction a generalizing b with
  | nil => cases b <;> simp [commonLen]
  | cons x as ih =>
    cases b with
    | nil => simp [commonLen]
    | cons y bs =>
      simp only [commonLen]
      split
      · have := ih bs
        simp
        omega
      · simp

theorem commonLen_eq_length_iff (a b : List Str) :
    commonLen a b = a.length ↔ a <+: b := by
  induction a generalizing b with
  | nil => cases b <;> simp [commonLen]
  | cons x as ih =>
    cases b with
    | nil =>
      simp only [commonLen, List.length_cons]
      constructor
      · intro h; omega
      · intro h; exact absurd (h.subset (List.mem_cons_self x as)) (by simp)
    | cons y bs =>
      simp only [commonLen, List.length_cons]
      constructor
      · intro h
        split at h
        · rename_i hxy
          subst hxy
          exact List.cons_prefix_cons.mpr ⟨rfl, (ih bs).mp (by omega)⟩
        · omega
      · intro h
        rcases List.cons_prefix_cons.mp h with ⟨hxy, htail⟩
        subst hxy
        rw [if_pos rfl, (ih bs).mpr htail]

theorem intercalate_clean_ne_nil (R : List Str) (hR0 : R ≠ [])
    (hR : ∀ x ∈ R, cleanSeg x) : List.intercalate ['/'] R ≠ [] := by
  cases R with
  | nil => exact absurd rfl hR0
  | cons r rs =>
    cases rs with
    | nil =>
      rw [intercalate_single]
      exact (hR r (List.mem_cons_self r [])).1
    | cons r2 rs2 =>
      rw [intercalate_cons₂]
      simp

theorem joinAbs_inj {A B : List Str} (hA : ∀ x ∈ A, cleanSeg x)
    (hB : ∀ x ∈ B, cleanSeg x) (h : joinAbs A = joinAbs B) : A = B := by
  unfold joinAbs at h
  simp only [List.cons.injEq, true_and] at h
  by_cases hA0 : A = []
  · subst hA0
    rw [intercalate_nil'] at h
    by_cases hB0 : B = []
    · exact hB0.symm
    · exact absurd h.symm (intercalate_clean_ne_nil B hB0 hB)
  · by_cases hB0 : B = []
    · subst hB0
      rw [intercalate_nil'] at h
      exact absurd h (intercalate_clean_ne_nil A hA0 hA)
    · have hsA := splitChar_intercalate '/' A hA0 (fun p hp => (hA p hp).2.2.2)
      have hsB := splitChar_intercalate '/' B hB0 (fun p hp => (hB p hp).2.2.2)
      rw [← hsA, ← hsB, h]

/-- The head structure of an intercalation whose first piece is known. -/
theorem intercalate_take_head (s₀ : Str) (rest : List Str) (n : Nat)
    (hn : n ≤ s₀.length) :
    (List.intercalate ['/'] (s₀ :: rest)).take n = s₀.take n := by
  cases rest with
  | nil => rw [intercalate_single]
  | cons r rs =>
    rw [intercalate_cons₂]
    rw [List.append_assoc, List.take_append_of_le_length hn]

/-- The trailing `..`-free relative path never starts with `./`, so
`stripDotSlash` leaves it alone. -/
theorem stripDotSlash_intercalate_clean (s : List Str)
    (hs : ∀ x ∈ s, cleanSeg x) :
    stripDotSlash (List.intercalate ['/'] s) = List.intercalate ['/'] s := by
  unfold stripDotSlash
  rw [if_neg]
  intro hcontra
  cases s with
  | nil => simp [intercalate_nil'] at hcontra
  | cons s₀ rest =>
    have h0 := hs s₀ (List.mem_cons_self s₀ rest)
    cases hs₀ : s₀ with
    | nil => exact h0.1 hs₀
    | cons x xs =>
      cases hxs : xs with
      | nil =>
        -- s₀ = [x]; the second taken character (if any) is the separator
        subst hs₀; subst hxs
        cases rest with
        | nil =>
          rw [intercalate_single] at hcontra
          simp at hcontra
        | cons r rs =>
          rw [intercalate_cons₂] at hcontra
          simp at hcontra
          exact h0.2.1 (by simp [hcontra])
      | cons y ys =>
        -- s₀ has at least two characters, both inside the clean segment
        subst hs₀; subst hxs
        have htake : (List.intercalate ['/'] ((x :: y :: ys) :: rest)).take 2
            = [x, y] := by
          rw [intercalate_take_head (x :: y :: ys) rest 2 (by simp)]
          simp
        rw [htake] at hcontra
        simp at hcontra
        exact h0.2.2.2 (by simp [hcontra.2])

theorem isAbsolute_intercalate_clean (s : List Str) (hs : ∀ x ∈ s, cleanSeg x) :
    isAbsolute (List.intercalate ['/'] s) = false := by
  cases s with
  | nil => simp [intercalate_nil', isAbsolute, startsWithChar]
  | cons s₀ rest =>
    have h0 := hs s₀ (List.mem_cons_self s₀ rest)
    obtain ⟨x, xs, hs₀⟩ : ∃ x xs, s₀ = x :: xs := by
      cases hc : s₀ with
      | nil => exact absurd hc h0.1
      | cons a b => exact ⟨a, b, rfl⟩
    subst hs₀
    have hx : x ≠ '/' := fun hcontra =>
      h0.2.2.2 (by rw [hcontra]; exact List.mem_cons_self _ _)
    obtain ⟨t, ht⟩ : ∃ t, List.intercalate ['/'] ((x :: xs) :: rest) = x :: t := by
      cases rest with
      | nil => rw [intercalate_single]; exact ⟨xs, rfl⟩
      | cons r rs =>
        rw [intercalate_cons₂]
        exact ⟨xs ++ '/' :: List.intercalate ['/'] (r :: rs), by simp⟩
    rw [ht]
    simp [isAbsolute, startsWithChar, hx]

theorem pathRelative_joinAbs (R T : List Str) (hR : ∀ x ∈ R, cleanSeg x)
    (hT : ∀ x ∈ T, cleanSeg x) :
    pathRelative (joinAbs R) (joinAbs T) =
      List.intercalate ['/']
        (List.replicate (R.length - commonLen R T) ['.', '.'] ++
          T.drop (commonLen R T)) := by
  unfold pathRelative
  have h1 : normalizeSegs (splitChar '/' (joinAbs R)) = R := by
    have := normalizeSegs_join_prepend R hR []
    simpa using this
  have h2 : normalizeSegs (splitChar '/' (joinAbs T)) = T := by
    have := normalizeSegs_join_prepend T hT []
    simpa using this
  rw [h1, h2]

/-- The central path round trip: for an accepted raw path, resolving the
normalized relative path against the root recovers the absolute path.  In
particular the normalized relative path determines the absolute path. -/
theorem computePaths_ok (R : List Str) (hR : ∀ x ∈ R, cleanSeg x)
    (raw rel abs : Str)
    (h : computePaths (joinAbs R) raw = .ok (rel, abs)) :
    pathResolve (joinAbs R) rel = abs ∧
      rel = List.intercalate ['/']
        ((normalizeSegs (splitChar '/' abs)).drop R.length) := by
  unfold computePaths at h
  split at h
  · exact absurd h (by simp)
  split at h
  · exact absurd h (by simp)
  rename_i htrim habs
  rw [Bool.not_eq_true] at habs
  split at h
  · exact absurd h (by simp)
  rename_i hesc
  simp only [Except.ok.injEq, Prod.mk.injEq] at h
  obtain ⟨hrel, habsp⟩ := h
  -- The resolved target in segment form.
  set T := List.foldl segStep R (splitChar '/' raw) with hT_def
  have hres : pathResolve (joinAbs R) raw = joinAbs T :=
    pathResolve_not_abs R hR raw habs
  have hTclean : ∀ x ∈ T, cleanSeg x := by
    rw [hT_def]
    exact foldl_segStep_clean (splitChar '/' raw)
      (fun t ht => splitChar_sep_not_mem '/' raw t ht) R hR
  have hrelform : pathRelative (joinAbs R) (pathResolve (joinAbs R) raw)
      = List.intercalate ['/']
          (List.replicate (R.length - commonLen R T) ['.', '.'] ++
            T.drop (commonLen R T)) := by
    rw [hres]
    exact pathRelative_joinAbs R T hR hTclean
  rw [hrelform] at hrel hesc
  simp only [Bool.or_eq_true, not_or, decide_eq_true_eq] at hesc
  -- The escape test passed, so there are no leading `..` segments.
  have hk : R.length - commonLen R T = 0 := by
    by_contra hk0
    apply hesc.1
    obtain ⟨n, hn⟩ : ∃ n, R.length - commonLen R T = n + 1 :=
      ⟨R.length - commonLen R T - 1, by omega⟩
    rw [hn, List.replicate_succ, List.cons_append,
      intercalate_take_head ['.', '.'] _ 2 (by simp)]
    simp
  have hcommon : commonLen R T = R.length := by
    have := commonLen_le_left R T
    omega
  obtain ⟨s, hs⟩ := (commonLen_eq_length_iff R T).mp hcommon
  have hdrop : T.drop (commonLen R T) = s := by
    rw [hcommon, ← hs, List.drop_left]
  rw [hk, hdrop] at hrel
  simp only [List.replicate_zero, List.nil_append] at hrel
  -- rel is the plain intercalation of the clean suffix segments.
  have hsclean : ∀ x ∈ s, cleanSeg x := by
    intro x hx
    exact hTclean x (by rw [← hs]; exact List.mem_append_right R hx)
  have hrel' : rel = List.intercalate ['/'] s := by
    rw [← hrel]
    unfold normalizeRelativePath
    by_cases hs0 : s = []
    · subst hs0
      simp [intercalate_nil', splitChar, intercalate_single, stripDotSlash]
    · rw [splitChar_intercalate '/' s hs0 (fun p hp => (hsclean p hp).2.2.2)]
      exact stripDotSlash_intercalate_clean s hsclean
  constructor
  · rw [hrel', ← habsp, hres]
    -- Resolving the suffix against the root recovers the absolute segments.
    by_cases hs0 : s = []
    · subst hs0
      rw [intercalate_nil']
      rw [pathResolve_not_abs R hR [] (by simp [isAbsolute, startsWithChar])]
      simp only [splitChar, List.foldl_cons, segStep_nil_seg, List.foldl_nil]
      rw [← hs]
      simp
    · rw [pathResolve_not_abs R hR _ (isAbsolute_intercalate_clean s hsclean)]
      rw [splitChar_intercalate '/' s hs0 (fun p hp => (hsclean p hp).2.2.2)]
      rw [foldl_segStep_of_clean s hsclean R, hs]
  · rw [hrel', ← habsp, hres]
    have hT' : normalizeSegs (splitChar '/' (joinAbs T)) = T := by
      have := normalizeSegs_join_prepend T hTclean []
      simpa using this
    rw [hT', ← hs, List.drop_left]

theorem forall₂_mem_right {α β : Type} {r : α → β → Prop} :
    ∀ {l₁ : List α} {l₂ : List β}, List.Forall₂ r l₁ l₂ →
      ∀ b ∈ l₂, ∃ a ∈ l₁, r a b := by
  intro l₁ l₂ h
  induction h with
  | nil => simp
  | @cons a b as bs hr htail ih =>
    intro x hx
    rcases List.mem_cons.mp hx with h1 | h1
    · exact ⟨a, List.mem_cons_self _ _, h1 ▸ hr⟩
    · obtain ⟨a', ha', hra'⟩ := ih x h1
      exact ⟨a', List.mem_cons_of_mem _ ha', hra'⟩

/-- The field-level relation between a declared entry and its normalized
form, as established by `normalizeFiles`. -/
def NormalizesTo (rootDir : Str) (pe : Str × ConfigEntry)
    (nf : NormalizedConfigFile) : Prop :=
  computePaths rootDir pe.1 = .ok (nf.relativePath, nf.absolutePath) ∧
  nf.contents = pe.2.contents ∧
  nf.gitignoreEntry =
    (if pe.2.gitignore = some false then none else some nf.relativePath) ∧
  nf.mode = pe.2.mode

theorem seenMem_iff (seen : List Str) (x : Str) :
    seenMem seen x = true ↔ x ∈ seen := by
  induction seen with
  | nil => simp [seenMem]
  | cons s rest ih =>
    simp only [seenMem, Bool.or_eq_true, decide_eq_true_eq, ih, List.mem_cons]
    constructor
    · rintro (h | h)
      · exact Or.inl h.symm
      · exact Or.inr h
    · rintro (h | h)
      · exact Or.inl h.symm
      · exact Or.inr h

theorem normalizeFilesGo_shape (rootDir : Str) :
    ∀ (l : List (Str × ConfigEntry)) (seen : List Str)
      (nfs : List NormalizedConfigFile),
      normalizeFilesGo rootDir l seen = .ok nfs →
      List.Forall₂ (NormalizesTo rootDir) l nfs := by
  intro l
  induction l with
  | nil =>
    intro seen nfs h
    simp only [normalizeFilesGo] at h
    cases h
    exact List.Forall₂.nil
  | cons pe rest ih =>
    intro seen nfs h
    obtain ⟨rawPath, entry⟩ := pe
    simp only [normalizeFilesGo] at h
    split at h
    · exact absurd h (by simp)
    rename_i pair hcp
    split at h
    · exact absurd h (by simp)
    split at h
    · exact absurd h (by simp)
    rename_i tail htail
    simp only [Except.ok.injEq] at h
    subst h
    refine List.Forall₂.cons ?_ (ih _ tail htail)
    exact ⟨hcp, rfl, rfl, rfl⟩

theorem normalizeFiles_shape (files : ConfigMap) (rootDir : Str)
    (nfs : List NormalizedConfigFile) (h : normalizeFiles files rootDir = .ok nfs) :
    List.Forall₂ (NormalizesTo rootDir) files nfs :=
  normalizeFilesGo_shape rootDir files [] nfs h

theorem normalizeFilesGo_nodup (rootDir : Str) :
    ∀ (l : List (Str × ConfigEntry)) (seen : List Str)
      (nfs : List NormalizedConfigFile),
      normalizeFilesGo rootDir l seen = .ok nfs →
      (nfs.map (fun nf => nf.relativePath)).Nodup ∧
        ∀ nf ∈ nfs, nf.relativePath ∉ seen := by
  intro l
  induction l with
  | nil =>
    intro seen nfs h
    simp only [normalizeFilesGo] at h
    cases h
    simp
  | cons pe rest ih =>
    intro seen nfs h
    obtain ⟨rawPath, entry⟩ := pe
    simp only [normalizeFilesGo] at h
    split at h
    · exact absurd h (by simp)
    rename_i pair hcp
    split at h
    · exact absurd h (by simp)
    rename_i hseen
    split at h
    · exact absurd h (by simp)
    rename_i tail htail
    simp only [Except.ok.injEq] at h
    subst h
    have htl := ih _ tail htail
    constructor
    · simp only [List.map_cons, List.nodup_cons]
      constructor
      · intro hmem
        simp only [List.mem_map] at hmem
        obtain ⟨nf, hnf, hrel⟩ := hmem
        have := htl.2 nf hnf
        rw [hrel] at this
        exact this (List.mem_cons_self _ _)
      · exact htl.1
    · intro nf hnf
      rcases List.mem_cons.mp hnf with h1 | h1
      · subst h1
        simpa using fun hcontra => hseen ((seenMem_iff seen _).mpr hcontra)
      · exact fun hcontra =>
          htl.2 nf h1 (List.mem_cons_of_mem _ hcontra)

theorem normalizeFiles_rel_nodup (files : ConfigMap) (rootDir : Str)
    (nfs : List NormalizedConfigFile) (h : normalizeFiles files rootDir = .ok nfs) :
    (nfs.map (fun nf => nf.relativePath)).Nodup :=
  (normalizeFilesGo_nodup rootDir files [] nfs h).1

/-- Every resolved root (`path.resolve(...)`) is the rendering of a clean
segment list. -/
theorem pathResolve_clean_form (base p : Str) :
    ∃ R, (∀ x ∈ R, cleanSeg x) ∧ pathResolve base p = joinAbs R := by
  refine ⟨_, ?_, rfl⟩
  exact pathResolve_clean base p

/-- On normalized files of one invocation the relative path determines the
absolute path, so distinct relative paths give distinct absolute paths. -/
theorem normalizeFiles_abs_of_rel (files : ConfigMap) (base p : Str)
    (nfs : List NormalizedConfigFile)
    (h : normalizeFiles files (pathResolve base p) = .ok nfs) :
    ∀ nf ∈ nfs, pathResolve (pathResolve base p) nf.relativePath = nf.absolutePath := by
  obtain ⟨R, hR, hform⟩ := pathResolve_clean_form base p
  intro nf hnf
  have hshape := normalizeFiles_shape files _ nfs h
  obtain ⟨pe, hpe, hrel⟩ := forall₂_mem_right hshape nf hnf
  rw [hform] at hrel ⊢
  exact (computePaths_ok R hR pe.1 nf.relativePath nf.absolutePath hrel.1).1

theorem normalizeFiles_abs_nodup (files : ConfigMap) (base p : Str)
    (nfs : List NormalizedConfigFile)
    (h : normalizeFiles files (pathResolve base p) = .ok nfs) :
    (nfs.map (fun nf => nf.absolutePath)).Nodup := by
  obtain ⟨R, hR, hform⟩ := pathResolve_clean_form base p
  have hrels := normalizeFiles_rel_nodup files _ nfs h
  have hshape := normalizeFiles_shape files _ nfs h
  -- The relative path is recoverable from the absolute path, so distinct
  -- relative paths force distinct absolute paths.
  have hrec : ∀ nf ∈ nfs,
      List.intercalate ['/'] ((normalizeSegs (splitChar '/' nf.absolutePath)).drop R.length)
        = nf.relativePath := by
    intro nf hnf
    obtain ⟨pe, hpe, hrel⟩ := forall₂_mem_right hshape nf hnf
    rw [hform] at hrel
    exact (computePaths_ok R hR pe.1 nf.relativePath nf.absolutePath hrel.1).2.symm
  apply List.Nodup.of_map
    (fun a => List.intercalate ['/'] ((normalizeSegs (splitChar '/' a)).drop R.length))
  rw [List.map_map]
  have heq : nfs.map ((fun a => List.intercalate ['/']
        ((normalizeSegs (splitChar '/' a)).drop R.length)) ∘ fun nf => nf.absolutePath)
      = nfs.map (fun nf => nf.relativePath) := by
    apply List.map_congr_left
    intro nf hnf
    exact hrec nf hnf
  rw [heq]
  exact hrels

/-! ## Lemmas: the file-system model -/

theorem fsRead_fsWrite_self (fs : FS) (p c : Str) :
    fsRead (fsWrite fs p c) p = some c := by
  induction fs with
  | nil => simp [fsWrite, fsRead]
  | cons e rest ih =>
    obtain ⟨q, d⟩ := e
    by_cases hq : q = p
    · simp [fsWrite, fsRead, hq]
    · simp [fsWrite, fsRead, hq, ih]

theorem fsRead_fsWrite_ne (fs : FS) (p c q : Str) (h : q ≠ p) :
    fsRead (fsWrite fs p c) q = fsRead fs q := by
  have hpq : p ≠ q := fun hc => h hc.symm
  induction fs with
  | nil => simp [fsWrite, fsRead, hpq]
  | cons e rest ih =>
    obtain ⟨r, d⟩ := e
    by_cases hr : r = p
    · subst hr
      simp [fsWrite, fsRead, hpq]
    · simp [fsWrite, fsRead, hr, ih]

/-! ## Lemmas: the per-file reconciliation loop -/

theorem syncFile_read_other (f : NormalizedConfigFile) (dryRun : Bool) (fs : FS)
    (p : Str) (hp : p ≠ f.absolutePath) :
    fsRead (syncFile f dryRun fs).2 p = fsRead fs p := by
  unfold syncFile
  split
  · rfl
  · cases dryRun with
    | true => simp
    | false => simpa using fsRead_fsWrite_ne fs f.absolutePath f.contents p hp

theorem syncFile_dry_fs (f : NormalizedConfigFile) (fs : FS) :
    (syncFile f true fs).2 = fs := by
  unfold syncFile
  split <;> simp

theorem syncFile_live_read (f : NormalizedConfigFile) (fs : FS) :
    fsRead (syncFile f false fs).2 f.absolutePath = some f.contents := by
  unfold syncFile
  split
  · rename_i hsame
    simpa using hsame
  · simpa using fsRead_fsWrite_self fs f.absolutePath f.contents

theorem syncFile_action (f : NormalizedConfigFile) (dryRun : Bool) (fs : FS) :
    (syncFile f dryRun fs).1 =
      (if fsRead fs f.absolutePath = some f.contents then .unchanged
       else if fsRead fs f.absolutePath = none then .created else .updated) := by
  unfold syncFile
  split
  · rfl
  · rfl

theorem runFiles_dry_fs (nfs : List NormalizedConfigFile) (fs : FS) :
    (runFiles true nfs fs).2 = fs := by
  induction nfs generalizing fs with
  | nil => rfl
  | cons f rest ih =>
    simp only [runFiles]
    rw [ih, syncFile_dry_fs]

theorem runFiles_read_other (dryRun : Bool) (nfs : List NormalizedConfigFile)
    (fs : FS) (p : Str) (hp : ∀ nf ∈ nfs, p ≠ nf.absolutePath) :
    fsRead (runFiles dryRun nfs fs).2 p = fsRead fs p := by
  induction nfs generalizing fs with
  | nil => rfl
  | cons f rest ih =>
    simp only [runFiles]
    rw [ih _ (fun nf hnf => hp nf (List.mem_cons_of_mem f hnf)),
      syncFile_read_other f dryRun fs p (hp f (List.mem_cons_self f rest))]

/-- After a live run with pairwise-distinct absolute paths, every target file
holds its desired contents. -/
theorem runFiles_live_written (nfs : List NormalizedConfigFile) (fs : FS)
    (hdist : (nfs.map (fun nf => nf.absolutePath)).Nodup) :
    ∀ nf ∈ nfs, fsRead (runFiles false nfs fs).2 nf.absolutePath = some nf.contents := by
  induction nfs generalizing fs with
  | nil => simp
  | cons f rest ih =>
    simp only [List.map_cons, List.nodup_cons] at hdist
    intro nf hnf
    rcases List.mem_cons.mp hnf with h1 | h1
    · subst h1
      simp only [runFiles]
      rw [runFiles_read_other false rest _ nf.absolutePath
        (fun g hg hcontra =>
          hdist.1 (by rw [hcontra]; exact List.mem_map_of_mem _ hg))]
      exact syncFile_live_read nf fs
    · exact ih _ hdist.2 nf h1

/-- If every target already holds its desired contents, the loop reports
every file unchanged and leaves the file system untouched. -/
theorem runFiles_all_unchanged (dryRun : Bool) (nfs : List NormalizedConfigFile)
    (fs : FS) (h : ∀ nf ∈ nfs, fsRead fs nf.absolutePath = some nf.contents) :
    (runFiles dryRun nfs fs).2 = fs ∧
      ∀ r ∈ (runFiles dryRun nfs fs).1, r.action = FileAction.unchanged := by
  induction nfs generalizing fs with
  | nil => exact ⟨rfl, by simp [runFiles]⟩
  | cons f rest ih =>
    have hf := h f (List.mem_cons_self f rest)
    have hsf : syncFile f dryRun fs = (.unchanged, fs) := by
      unfold syncFile
      rw [if_pos hf]
    simp only [runFiles, hsf]
    have htail := ih fs (fun nf hnf => h nf (List.mem_cons_of_mem f hnf))
    refine ⟨htail.1, ?_⟩
    intro r hr
    rcases List.mem_cons.mp hr with h1 | h1
    · rw [h1]
    · exact htail.2 r h1

/-- The per-file outcome records: one record per normalized file, in order,
with the bookkeeping fields determined by the file and its action. -/
theorem runFiles_results_shape (dryRun : Bool) (nfs : List NormalizedConfigFile)
    (fs : FS) :
    List.Forall₂
      (fun (nf : NormalizedConfigFile) (r : FileSyncResult) =>
        r.path = nf.relativePath ∧ r.absolutePath = nf.absolutePath ∧
        r.skipped = decide (r.action = FileAction.unchanged) ∧
        r.gitignored = decide (nf.gitignoreEntry.getD [] ≠ []))
      nfs (runFiles dryRun nfs fs).1 := by
  induction nfs generalizing fs with
  | nil => exact List.Forall₂.nil
  | cons f rest ih =>
    simp only [runFiles]
    exact List.Forall₂.cons ⟨rfl, rfl, rfl, rfl⟩ (ih _)

/-- Live and dry runs from file systems that agree on all target paths
produce the same records, provided the target paths are pairwise distinct. -/
theorem runFiles_results_congr (d d' : Bool) (nfs : List NormalizedConfigFile)
    (fs fs' : FS)
    (hagree : ∀ nf ∈ nfs, fsRead fs' nf.absolutePath = fsRead fs nf.absolutePath)
    (hdist : (nfs.map (fun nf => nf.absolutePath)).Nodup) :
    (runFiles d' nfs fs').1 = (runFiles d nfs fs).1 := by
  induction nfs generalizing fs fs' with
  | nil => rfl
  | cons f rest ih =>
    simp only [List.map_cons, List.nodup_cons] at hdist
    have hf := hagree f (List.mem_cons_self f rest)
    have haction : (syncFile f d' fs').1 = (syncFile f d fs).1 := by
      rw [syncFile_action, syncFile_action, hf]
    simp only [runFiles, haction]
    have hagree' : ∀ nf ∈ rest,
        fsRead (syncFile f d' fs').2 nf.absolutePath
          = fsRead (syncFile f d fs).2 nf.absolutePath := by
      intro nf hnf
      have hne : nf.absolutePath ≠ f.absolutePath := by
        intro hcontra
        exact hdist.1 (by rw [← hcontra]; exact List.mem_map_of_mem _ hnf)
      rw [syncFile_read_other f d' fs' _ hne, syncFile_read_other f d fs _ hne]
      exact hagree nf (List.mem_cons_of_mem f hnf)
    rw [ih _ _ hagree' hdist.2]

/-! ## Lemmas: the managed block -/

theorem blockRunLength_eq_takeWhile (ls : List Str) :
    blockRunLength ls = (ls.takeWhile (fun l => !isBlockBoundary l)).length := by
  induction ls with
  | nil => rfl
  | cons l rest ih =>
    simp only [blockRunLength, List.takeWhile_cons]
    by_cases hb : isBlockBoundary l
    · simp [hb]
    · simp [hb, ih]

theorem splitAtMarker_eq_none (lines : List Str)
    (h : MANAGED_COMMENT ∉ lines) : splitAtMarker lines = none := by
  induction lines with
  | nil => rfl
  | cons l rest ih =>
    have hl : l ≠ MANAGED_COMMENT := fun hc => h (hc ▸ List.mem_cons_self l rest)
    have hrest := ih (fun hc => h (List.mem_cons_of_mem l hc))
    simp only [splitAtMarker, if_neg hl, hrest]

theorem splitAtMarker_none_not_mem :
    ∀ lines : List Str, splitAtMarker lines = none → MANAGED_COMMENT ∉ lines := by
  intro lines
  induction lines with
  | nil => intro _; simp
  | cons l rest ih =>
    intro h
    simp only [splitAtMarker] at h
    by_cases hl : l = MANAGED_COMMENT
    · rw [if_pos hl] at h
      simp at h
    · rw [if_neg hl] at h
      cases hs : splitAtMarker rest with
      | none =>
        intro hmem
        rcases List.mem_cons.mp hmem with h1 | h1
        · exact hl h1.symm
        · exact ih hs h1
      | some pair =>
        obtain ⟨b, a⟩ := pair
        rw [hs] at h
        simp at h

theorem splitAtMarker_none_iff (lines : List Str) :
    splitAtMarker lines = none ↔ MANAGED_COMMENT ∉ lines :=
  ⟨splitAtMarker_none_not_mem lines, splitAtMarker_eq_none lines⟩

theorem splitAtMarker_some (lines b a : List Str)
    (h : splitAtMarker lines = some (b, a)) :
    lines = b ++ MANAGED_COMMENT :: a ∧ MANAGED_COMMENT ∉ b := by
  induction lines generalizing b with
  | nil => simp [splitAtMarker] at h
  | cons l rest ih =>
    simp only [splitAtMarker] at h
    by_cases hl : l = MANAGED_COMMENT
    · rw [if_pos hl] at h
      simp only [Option.some.injEq, Prod.mk.injEq] at h
      obtain ⟨hb, ha⟩ := h
      subst hb; subst ha; subst hl
      simp
    · rw [if_neg hl] at h
      cases hs : splitAtMarker rest with
      | none => rw [hs] at h; simp at h
      | some pair =>
        obtain ⟨b', a'⟩ := pair
        rw [hs] at h
        simp only [Option.some.injEq, Prod.mk.injEq] at h
        obtain ⟨hb, ha⟩ := h
        subst ha
        have := ih b' hs
        subst hb
        refine ⟨by rw [List.cons_append, ← this.1], ?_⟩
        intro hcontra
        rcases List.mem_cons.mp hcontra with h1 | h1
        · exact hl h1.symm
        · exact this.2 h1

theorem splitAtMarker_append (b a : List Str) (hb : MANAGED_COMMENT ∉ b) :
    splitAtMarker (b ++ MANAGED_COMMENT :: a) = some (b, a) := by
  induction b with
  | nil => simp [splitAtMarker]
  | cons l rest ih =>
    have hl : l ≠ MANAGED_COMMENT := fun h => hb (h ▸ List.mem_cons_self l rest)
    have hrest : MANAGED_COMMENT ∉ rest := fun h => hb (List.mem_cons_of_mem l h)
    rw [List.cons_append]
    simp only [splitAtMarker, if_neg hl]
    rw [ih hrest]

theorem takeWhile_all {p : Str → Bool} (l : List Str) (h : ∀ x ∈ l, p x = true) :
    l.takeWhile p = l := by
  induction l with
  | nil => rfl
  | cons x rest ih =>
    rw [List.takeWhile_cons, if_pos (h x (List.mem_cons_self x rest))]
    rw [ih (fun y hy => h y (List.mem_cons_of_mem x hy))]

theorem filter_all {p : Str → Bool} (l : List Str) (h : ∀ x ∈ l, p x = true) :
    l.filter p = l := by
  induction l with
  | nil => rfl
  | cons x rest ih =>
    rw [List.filter_cons_of_pos (h x (List.mem_cons_self x rest))]
    rw [ih (fun y hy => h y (List.mem_cons_of_mem x hy))]

theorem dropSeparatingBlank_subset (ls : List Str) :
    ∀ x ∈ dropSeparatingBlank ls, x ∈ ls := by
  intro x hx
  unfold dropSeparatingBlank at hx
  split at hx
  · split at hx
    · exact List.mem_cons_of_mem _ hx
    · exact hx
  · exact hx

/-- The extraction when no marker line is present. -/
theorem extract_no_marker (content : Str)
    (h : MANAGED_COMMENT ∉ splitLines content) :
    extractManagedBlock content =
      ⟨[], trimTrailingEmptyLines (splitLines content)⟩ := by
  unfold extractManagedBlock
  rw [(splitAtMarker_none_iff (splitLines content)).mpr h]

/-- The extraction at the first marker occurrence: the entries are the
contiguous non-boundary run after the marker; everything else, minus one
separating blank line and trailing blanks, is kept. -/
theorem extract_decomp (content : Str) (pre post : List Str)
    (hsplit : splitLines content = pre ++ MANAGED_COMMENT :: post)
    (hpre : MANAGED_COMMENT ∉ pre) :
    extractManagedBlock content =
      ⟨post.takeWhile (fun l => !isBlockBoundary l),
        trimTrailingEmptyLines
          (pre ++ dropSeparatingBlank
            (post.drop (post.takeWhile (fun l => !isBlockBoundary l)).length))⟩ := by
  unfold extractManagedBlock
  rw [hsplit, splitAtMarker_append pre post hpre]
  simp only
  congr 1
  apply filter_all
  intro x hx
  have := List.mem_takeWhile_imp hx
  simp only [Bool.not_eq_true', isBlockBoundary, Bool.or_eq_false_iff] at this
  simp [this.1]

theorem extract_lwb_subset (content : Str) :
    ∀ l ∈ (extractManagedBlock content).linesWithoutBlock,
      l ∈ splitLines content := by
  intro l hl
  unfold extractManagedBlock at hl
  cases hs : splitAtMarker (splitLines content) with
  | none =>
    rw [hs] at hl
    exact trimTrailing_subset _ l hl
  | some pair =>
    obtain ⟨b, a⟩ := pair
    rw [hs] at hl
    simp only at hl
    have hdecomp := splitAtMarker_some _ b a hs
    have hl2 := trimTrailing_subset _ l hl
    rw [hdecomp.1]
    rcases List.mem_append.mp hl2 with h1 | h1
    · exact List.mem_append_left _ h1
    · have := dropSeparatingBlank_subset _ l h1
      have := List.mem_of_mem_drop this
      exact List.mem_append_right _ (List.mem_cons_of_mem _ this)

theorem extract_lwb_trimmed (content : Str) :
    trimTrailingEmptyLines (extractManagedBlock content).linesWithoutBlock
      = (extractManagedBlock content).linesWithoutBlock := by
  unfold extractManagedBlock
  cases hs : splitAtMarker (splitLines content) with
  | none => exact trimTrailing_idem _
  | some pair =>
    obtain ⟨b, a⟩ := pair
    exact trimTrailing_idem _

/-- With at most one marker line in the file, the marker is gone from the
kept lines. -/
theorem extract_lwb_no_marker (content : Str)
    (h : (splitLines content).count MANAGED_COMMENT ≤ 1) :
    MANAGED_COMMENT ∉ (extractManagedBlock content).linesWithoutBlock := by
  unfold extractManagedBlock
  cases hs : splitAtMarker (splitLines content) with
  | none =>
    intro hcontra
    exact (splitAtMarker_none_iff _).mp hs (trimTrailing_subset _ _ hcontra)
  | some pair =>
    obtain ⟨b, a⟩ := pair
    simp only
    have hdecomp := splitAtMarker_some _ b a hs
    have hcount : (splitLines content).count MANAGED_COMMENT
        = b.count MANAGED_COMMENT + 1 + a.count MANAGED_COMMENT := by
      rw [hdecomp.1, List.count_append, List.count_cons_self]
      omega
    have ha : MANAGED_COMMENT ∉ a := by
      intro hcontra
      have := List.count_pos_iff.mpr hcontra
      omega
    intro hcontra
    have hmem := trimTrailing_subset _ _ hcontra
    rcases List.mem_append.mp hmem with h1 | h1
    · exact hdecomp.2 h1
    · exact ha (List.mem_of_mem_drop (dropSeparatingBlank_subset _ _ h1))

/-! ## Lemmas: rebuilding the ignore file -/

theorem buildLines_eq (lwb E : List Str) (hE : E ≠ []) :
    buildLines lwb E =
      trimTrailingEmptyLines lwb ++
        (if trimTrailingEmptyLines lwb = [] then [] else [[]]) ++
        MANAGED_COMMENT :: E := by
  unfold buildLines
  rw [if_pos hE]
  by_cases h0 : trimTrailingEmptyLines lwb = []
  · rw [h0]
    simp
  · have hcond : trimTrailingEmptyLines lwb ≠ [] ∧
        (trimTrailingEmptyLines lwb).getLast? ≠ some [] := by
      refine ⟨h0, fun hcontra => ?_⟩
      exact trimTrailing_getLast lwb [] hcontra rfl
    rw [if_pos hcond, if_neg h0]

theorem intercalate_ne_nil_of_mem (s : Str) (L : List Str) (x : Str)
    (hx : x ∈ L) (hxne : x ≠ []) : List.intercalate s L ≠ [] := by
  induction L with
  | nil => simp at hx
  | cons p rest ih =>
    cases rest with
    | nil =>
      rw [intercalate_single]
      rcases List.mem_cons.mp hx with h1 | h1
      · exact h1 ▸ hxne
      · simp at h1
    | cons q qs =>
      rw [intercalate_cons₂]
      rcases List.mem_cons.mp hx with h1 | h1
      · subst h1
        intro hcontra
        rcases List.append_eq_nil.mp hcontra with ⟨h2, _⟩
        rcases List.append_eq_nil.mp h2 with ⟨h3, _⟩
        exact hxne h3
      · intro hcontra
        rcases List.append_eq_nil.mp hcontra with ⟨_, h2⟩
        exact ih h1 h2

/-- A trimmed, non-empty entry line ends in a non-whitespace character, in
particular not in a carriage return. -/
theorem trimmed_entry_no_cr (e : Str) (ht : trimChars e = e) :
    e.getLast? ≠ some '\r' := by
  intro hcontra
  exact trimChars_getLast_not_ws ht hcontra (by decide)

/-- Reassembling and re-parsing the rebuilt ignore file recovers exactly the
kept lines and the written entries. -/
theorem extract_build_roundtrip (lwb E : List Str)
    (hlwb_nl : ∀ l ∈ lwb, '\n' ∉ l)
    (hlwb_cr : ∀ l ∈ lwb, l.getLast? ≠ some '\r')
    (hlwbM : MANAGED_COMMENT ∉ lwb)
    (hlwb_trim : trimTrailingEmptyLines lwb = lwb)
    (hE : E ≠ [])
    (hEgood : ∀ e ∈ E, trimChars e = e ∧ e ≠ [] ∧
      startsWithChar '#' e = false ∧ '\n' ∉ e) :
    extractManagedBlock (buildGitignoreContent lwb E) = ⟨E, lwb⟩ := by
  have hL : buildLines lwb E
      = (lwb ++ (if lwb = [] then [] else [[]])) ++ MANAGED_COMMENT :: E := by
    rw [buildLines_eq lwb E hE, hlwb_trim]
  have hLgood : ∀ p ∈ buildLines lwb E, '\n' ∉ p ∧ p.getLast? ≠ some '\r' := by
    intro p hp
    rw [hL] at hp
    rcases List.mem_append.mp hp with h1 | h1
    · rcases List.mem_append.mp h1 with h2 | h2
      · exact ⟨hlwb_nl p h2, hlwb_cr p h2⟩
      · split at h2
        · simp at h2
        · simp at h2
          subst h2
          exact ⟨by simp, by simp⟩
    · rcases List.mem_cons.mp h1 with h2 | h2
      · subst h2
        exact ⟨by decide, by decide⟩
      · obtain ⟨het, hene, _, henl⟩ := hEgood p h2
        exact ⟨henl, trimmed_entry_no_cr p het⟩
  have hLne : buildLines lwb E ≠ [] := by
    rw [hL]
    simp
  have hcontent : buildGitignoreContent lwb E
      = List.intercalate ['\n'] (buildLines lwb E) ++ ['\n'] := by
    unfold buildGitignoreContent linesToContent
    rw [if_pos]
    exact intercalate_ne_nil_of_mem ['\n'] (buildLines lwb E) MANAGED_COMMENT
      (by rw [hL]; exact List.mem_append_right _ (List.mem_cons_self _ _))
      (by decide)
  have hsplit : splitLines (buildGitignoreContent lwb E) = buildLines lwb E := by
    rw [hcontent]
    exact splitLines_join _ hLne hLgood
  have hMnotin : MANAGED_COMMENT ∉ lwb ++ (if lwb = [] then [] else [[]]) := by
    intro hcontra
    rcases List.mem_append.mp hcontra with h1 | h1
    · exact hlwbM h1
    · split at h1
      · simp at h1
      · simp at h1
        exact absurd h1.symm (by decide)
  unfold extractManagedBlock
  rw [hsplit, hL, splitAtMarker_append _ E hMnotin]
  have hrun : E.takeWhile (fun l => !isBlockBoundary l) = E := by
    apply takeWhile_all
    intro e he
    obtain ⟨het, hene, hhash, _⟩ := hEgood e he
    simp only [Bool.not_eq_true', isBlockBoundary, Bool.or_eq_false_iff]
    constructor
    · simp only [decide_eq_false_iff_not]
      rw [het]
      exact hene
    · exact hhash
  simp only [hrun]
  have hfilter : E.filter (fun l => trimChars l ≠ []) = E := by
    apply filter_all
    intro e he
    obtain ⟨het, hene, _, _⟩ := hEgood e he
    simp [het, hene]
  have hdrop : E.drop E.length = [] := List.drop_length E
  rw [hfilter, hdrop]
  have hblank : dropSeparatingBlank [] = [] := rfl
  rw [hblank]
  have hfinal : trimTrailingEmptyLines
      ((lwb ++ (if lwb = [] then [] else [[]])) ++ []) = lwb := by
    rw [List.append_nil]
    split
    · rename_i h0
      subst h0
      rfl
    · rw [trimTrailing_append_blank lwb [] rfl]
      exact hlwb_trim
  rw [hfinal]

/-! ## Lemmas: entry normalisation -/

theorem length_stripDotSlash_le (l : Str) :
    (stripDotSlash l).length ≤ l.length := by
  unfold stripDotSlash
  split
  · simp
  · exact le_refl _

theorem stripDotSlash_eq_self_of_length {l : Str}
    (h : (stripDotSlash l).length = l.length) : stripDotSlash l = l := by
  unfold stripDotSlash at h ⊢
  split at h
  · rename_i htake
    have hlen : 2 ≤ l.length := by
      have := congrArg List.length htake
      simp at this
      have := List.length_take 2 l
      omega
    simp at h
    omega
  · rename_i htake
    rw [if_neg htake]

/-- A non-empty fixed point of `normalizeGitignoreEntry` is a trimmed,
non-comment line: exactly what survives a round trip through the managed
block unchanged. -/
theorem normalizeGitignoreEntry_fix (e : Str)
    (hfix : normalizeGitignoreEntry e = e) (hne : e ≠ []) :
    trimChars e = e ∧ startsWithChar '#' e = false := by
  unfold normalizeGitignoreEntry at hfix
  split at hfix
  · exact absurd hfix.symm hne
  rename_i hcond
  simp only [Bool.or_eq_true, not_or] at hcond
  have hlen : e.length = ((stripDotSlash (trimChars e)).map
      (fun c => if c = '\\' then '/' else c)).length := by rw [hfix]
  rw [List.length_map] at hlen
  have h1 := length_stripDotSlash_le (trimChars e)
  have h2 := length_trimChars_le e
  have htrim : trimChars e = e := trimChars_eq_self_of_length (by omega)
  refine ⟨htrim, ?_⟩
  rw [← htrim]
  simpa using hcond.2

/-! ## Lemmas: `syncGitignore` case analysis -/

theorem syncGitignore_skipped (gitignorePath : Str) (entries : List Str)
    (dryRun : Bool) (fs : FS) (h : gitignoreUniqueEntries entries = []) :
    syncGitignore gitignorePath entries dryRun fs =
      ({ path := gitignorePath, updated := false, added := [], removed := []
         skipped := true }, fs) := by
  unfold syncGitignore
  rw [if_pos h]

theorem syncGitignore_same (gitignorePath : Str) (entries : List Str)
    (dryRun : Bool) (fs : FS) (hne : gitignoreUniqueEntries entries ≠ [])
    (hsame : gitignoreExistingBlock ((fsRead fs gitignorePath).getD [])
      = gitignoreUniqueEntries entries) :
    syncGitignore gitignorePath entries dryRun fs =
      ({ path := gitignorePath, updated := false, added := [], removed := []
         skipped := false }, fs) := by
  unfold syncGitignore
  rw [if_neg hne, if_pos (by simp [arraysEqual, hsame])]

theorem syncGitignore_rewrite (gitignorePath : Str) (entries : List Str)
    (dryRun : Bool) (fs : FS) (hne : gitignoreUniqueEntries entries ≠ [])
    (hdiff : gitignoreExistingBlock ((fsRead fs gitignorePath).getD [])
      ≠ gitignoreUniqueEntries entries) :
    syncGitignore gitignorePath entries dryRun fs =
      ({ path := gitignorePath
         updated := true
         added := (gitignoreUniqueEntries entries).filter
           (fun e => !seenMem (gitignoreExistingBlock ((fsRead fs gitignorePath).getD [])) e)
         removed := (gitignoreExistingBlock ((fsRead fs gitignorePath).getD [])).filter
           (fun e => !seenMem (gitignoreUniqueEntries entries) e)
         skipped := false },
       if dryRun then fs
       else fsWrite fs gitignorePath
         (buildGitignoreContent
           (extractManagedBlock ((fsRead fs gitignorePath).getD [])).linesWithoutBlock
           (gitignoreUniqueEntries entries))) := by
  unfold syncGitignore
  rw [if_neg hne, if_neg (by simp [arraysEqual, hdiff])]

/-- Every member of `gitignoreUniqueEntries` is the non-empty output of
`normalizeGitignoreEntry`. -/
theorem gitignoreUniqueEntries_mem (entries : List Str) :
    ∀ e ∈ gitignoreUniqueEntries entries,
      e ≠ [] ∧ ∃ v ∈ entries, normalizeGitignoreEntry v = e := by
  intro e he
  unfold gitignoreUniqueEntries at he
  have hmem := List.mem_filter.mp he
  refine ⟨by simpa using hmem.2, ?_⟩
  have h1 := hmem.1
  unfold uniqueNormalized at h1
  -- membership in the deduplicated list comes from the mapped list
  have : ∀ (l : List Str) (seen : List Str), e ∈ uniqueNormalizedGo l seen → e ∈ l := by
    intro l
    induction l with
    | nil => intro seen h; simp [uniqueNormalizedGo] at h
    | cons x rest ih =>
      intro seen h
      simp only [uniqueNormalizedGo] at h
      split at h
      · exact List.mem_cons_of_mem x (ih _ h)
      · rcases List.mem_cons.mp h with h1 | h1
        · exact h1 ▸ List.mem_cons_self x rest
        · exact List.mem_cons_of_mem x (ih _ h1)
  have h2 := this _ _ h1
  obtain ⟨v, hv, hveq⟩ := List.mem_map.mp h2
  exact ⟨v, hv, hveq⟩

/-! ## Claim C4 -/

/-- C4: in the `src/` tree every target is sentinel-free (`ConfigEntry` has
no sentinel field), and for every such target: the action is `unchanged`
exactly when the existing file content equals `desiredContent`
character-for-character (a missing file never equals a string); otherwise
the action is `created` when the file did not previously exist and
`updated` when it did; and unless dry-run the file afterwards contains
exactly `desiredContent` (parent-directory creation is content-invisible
in this model). -/
theorem C4_file_actions (f : NormalizedConfigFile) (dryRun : Bool) (fs : FS) :
    ((syncFile f dryRun fs).1 = FileAction.unchanged ↔
      fsRead fs f.absolutePath = some f.contents) ∧
    ((syncFile f dryRun fs).1 ≠ FileAction.unchanged →
      ((syncFile f dryRun fs).1 = FileAction.created ↔
        fsRead fs f.absolutePath = none) ∧
      ((syncFile f dryRun fs).1 = FileAction.updated ↔
        fsRead fs f.absolutePath ≠ none ∧
          fsRead fs f.absolutePath ≠ some f.contents)) ∧
    (dryRun = false →
      fsRead (syncFile f dryRun fs).2 f.absolutePath = some f.contents) ∧
    (dryRun = true → (syncFile f dryRun fs).2 = fs) := by
  refine ⟨?_, ?_, ?_, ?_⟩
  · rw [syncFile_action]
    by_cases hsame : fsRead fs f.absolutePath = some f.contents
    · simp [hsame]
    · rw [if_neg hsame]
      split <;> simp [hsame]
  · intro hne
    rw [syncFile_action] at hne ⊢
    by_cases hsame : fsRead fs f.absolutePath = some f.contents
    · rw [if_pos hsame] at hne
      exact absurd rfl hne
    · rw [if_neg hsame]
      by_cases hnone : fsRead fs f.absolutePath = none
      · simp [hnone]
      · simp [hnone, hsame]
  · intro hd
    subst hd
    exact syncFile_live_read f fs
  · intro hd
    subst hd
    exact syncFile_dry_fs f fs

/-- Witness for C4 at a concrete target and file system. -/
theorem C4_file_actions_witness :
    ((syncFile
        { relativePath := "a.txt".data, absolutePath := "/r/a.txt".data
          contents := "x".data, gitignoreEntry := some "a.txt".data
          mode := none }
        false []).1 = FileAction.created ↔
      fsRead [] "/r/a.txt".data = none) ∧
    fsRead (syncFile
        { relativePath := "a.txt".data, absolutePath := "/r/a.txt".data
          contents := "x".data, gitignoreEntry := some "a.txt".data
          mode := none }
        false []).2 "/r/a.txt".data = some "x".data := by
  refine ⟨?_, ?_⟩
  · exact ((C4_file_actions
      { relativePath := "a.txt".data, absolutePath := "/r/a.txt".data
        contents := "x".data, gitignoreEntry := some "a.txt".data
        mode := none } false []).2.1 (by decide)).1
  · exact (C4_file_actions
      { relativePath := "a.txt".data, absolutePath := "/r/a.txt".data
        contents := "x".data, gitignoreEntry := some "a.txt".data
        mode := none } false []).2.2.1 rfl

/-! ## Claim C8 -/

/-- C8: whenever the normalized, deduplicated ignore-entry set is empty
(after trimming, dropping empty and comment-starting candidates), the
ignore manager reports `skipped = true`, `updated = false`, and the file
system is returned untouched — the ignore file is not even created. -/
theorem C8_empty_entry_set (gitignorePath : Str) (entries : List Str)
    (dryRun : Bool) (fs : FS)
    (h : gitignoreUniqueEntries entries = []) :
    syncGitignore gitignorePath entries dryRun fs =
      ({ path := gitignorePath, updated := false, added := [], removed := []
         skipped := true }, fs) :=
  syncGitignore_skipped gitignorePath entries dryRun fs h

/-- Witness for C8: blank, comment and `./` candidates normalize away. -/
theorem C8_empty_entry_set_witness :
    syncGitignore "/r/.gitignore".data
      ["  ".data, "# comment".data, "./".data] false [] =
      ({ path := "/r/.gitignore".data, updated := false, added := []
         removed := [], skipped := true }, []) :=
  C8_empty_entry_set "/r/.gitignore".data
    ["  ".data, "# comment".data, "./".data] false [] (by decide)

/-! ## Claim C7 -/

/-- C7: the managed block starts at the first line equal to the marker
(`MANAGED_COMMENT ∉ pre` pins the first occurrence; later occurrences stay
inside `post`), its entries are the contiguous run after the marker up to
the first blank or comment line or end of file, and a marker immediately
followed by a boundary yields the empty run with the marker still removed
from the kept lines, unlike the no-marker case which keeps all lines. -/
theorem C7_block_recognition (content : Str) :
    (MANAGED_COMMENT ∉ splitLines content →
      extractManagedBlock content =
        ⟨[], trimTrailingEmptyLines (splitLines content)⟩) ∧
    (∀ pre post, splitLines content = pre ++ MANAGED_COMMENT :: post →
      MANAGED_COMMENT ∉ pre →
      extractManagedBlock content =
        ⟨post.takeWhile (fun l => !isBlockBoundary l),
          trimTrailingEmptyLines
            (pre ++ dropSeparatingBlank
              (post.drop (post.takeWhile (fun l => !isBlockBoundary l)).length))⟩) :=
  ⟨extract_no_marker content,
   fun pre post h1 h2 => extract_decomp content pre post h1 h2⟩

/-- Witness for C7 at a file whose marker is immediately followed by a
comment line: the block is recognized as empty and the marker line is
dropped, rather than the file being treated as having no block. -/
theorem C7_block_recognition_witness :
    extractManagedBlock "# Managed by cpconfig\n# tail\n".data =
      ⟨[], ["# tail".data]⟩ ∧
    extractManagedBlock "x\n# Managed by cpconfig\na\nb\n\ny\n# Managed by cpconfig\nz\n".data =
      ⟨["a".data, "b".data],
        ["x".data, "y".data, "# Managed by cpconfig".data, "z".data]⟩ := by
  constructor
  · have h := (C7_block_recognition "# Managed by cpconfig\n# tail\n".data).2
      [] ["# tail".data] (by decide) (by decide)
    rw [h]
    decide
  · have h := (C7_block_recognition
      "x\n# Managed by cpconfig\na\nb\n\ny\n# Managed by cpconfig\nz\n".data).2
      ["x".data]
      ["a".data, "b".data, [], "y".data, "# Managed by cpconfig".data, "z".data]
      (by decide) (by decide)
    rw [h]
    decide

/-! ## Claim C6 -/

theorem computePaths_escape_error (R : List Str) (hR : ∀ x ∈ R, cleanSeg x)
    (raw : Str)
    (h : isAbsolute raw = true ∨ escapesRoot (joinAbs R) raw) :
    ∃ msg, computePaths (joinAbs R) raw = .error msg := by
  unfold computePaths
  by_cases htrim : trimChars raw = []
  · exact ⟨_, by rw [if_pos htrim]⟩
  rw [if_neg htrim]
  by_cases habs : isAbsolute raw = true
  · exact ⟨_, by rw [if_pos habs]⟩
  rw [if_neg habs]
  rcases h with h | h
  · exact absurd h habs
  -- the escape: the relative path starts with `..`
  unfold escapesRoot at h
  rw [Bool.not_eq_true] at habs
  set T := List.foldl segStep R (splitChar '/' raw) with hT_def
  have hTclean : ∀ x ∈ T, cleanSeg x := by
    rw [hT_def]
    exact foldl_segStep_clean (splitChar '/' raw)
      (fun t ht => splitChar_sep_not_mem '/' raw t ht) R hR
  have hRsegs : normalizeSegs (splitChar '/' (joinAbs R)) = R := by
    have := normalizeSegs_join_prepend R hR []
    simpa using this
  have hTsegs : normalizeSegs (splitChar '/' (joinAbs R) ++ splitChar '/' raw) = T := by
    rw [normalizeSegs_join_prepend R hR (splitChar '/' raw)]
  rw [hRsegs, hTsegs] at h
  have hres : pathResolve (joinAbs R) raw = joinAbs T :=
    pathResolve_not_abs R hR raw habs
  have hrelform : pathRelative (joinAbs R) (pathResolve (joinAbs R) raw)
      = List.intercalate ['/']
          (List.replicate (R.length - commonLen R T) ['.', '.'] ++
            T.drop (commonLen R T)) := by
    rw [hres]
    exact pathRelative_joinAbs R T hR hTclean
  have hcne : commonLen R T ≠ R.length := fun hc =>
    h ((commonLen_eq_length_iff R T).mp hc)
  have hk1 : 1 ≤ R.length - commonLen R T := by
    have := commonLen_le_left R T
    omega
  have htake : (pathRelative (joinAbs R) (pathResolve (joinAbs R) raw)).take 2
      = ['.', '.'] := by
    rw [hrelform]
    obtain ⟨n, hn⟩ : ∃ n, R.length - commonLen R T = n + 1 :=
      ⟨R.length - commonLen R T - 1, by omega⟩
    rw [hn, List.replicate_succ, List.cons_append,
      intercalate_take_head ['.', '.'] _ 2 (by simp)]
    rfl
  refine ⟨"must reside within the root directory", ?_⟩
  rw [if_pos]
  simp [htake]

theorem normalizeFilesGo_error (rootDir : Str) :
    ∀ (l : List (Str × ConfigEntry)) (seen : List Str),
      (∃ pe ∈ l, ∃ msg, computePaths rootDir pe.1 = .error msg) →
      ∃ msg, normalizeFilesGo rootDir l seen = .error msg := by
  intro l
  induction l with
  | nil =>
    intro seen h
    obtain ⟨pe, hpe, -⟩ := h
    exact absurd hpe (List.not_mem_nil pe)
  | cons pe rest ih =>
    intro seen h
    obtain ⟨rawPath, entry⟩ := pe
    simp only [normalizeFilesGo]
    cases hcp : computePaths rootDir rawPath with
    | error e => exact ⟨e, rfl⟩
    | ok pair =>
      obtain ⟨bad, hbad, msg, hmsg⟩ := h
      rcases List.mem_cons.mp hbad with h1 | h1
      · rw [h1] at hmsg
        simp only at hmsg
        rw [hcp] at hmsg
        exact absurd hmsg (by simp)
      · by_cases hseen : seenMem seen pair.1
        · refine ⟨"Duplicate config file definition", ?_⟩
          simp [hseen]
        · obtain ⟨msg', hmsg'⟩ := ih (pair.1 :: seen) ⟨bad, h1, msg, hmsg⟩
          refine ⟨msg', ?_⟩
          simp only [hseen]
          rw [if_neg (by simp [hseen]), hmsg']

/-- C6: whenever some declared target path is absolute, or its `..`
segments resolve outside the root directory, the whole call throws before
any write: the returned file system is exactly the input one. -/
theorem C6_root_escape (cwd : Str) (files : ConfigMap) (options : SyncOptions)
    (fs : FS)
    (h : ∃ pe ∈ files, isAbsolute pe.1 = true ∨
      escapesRoot (pathResolve cwd (options.rootDir.getD cwd)) pe.1) :
    ∃ msg, syncConfigs cwd files options fs = (.error msg, fs) := by
  obtain ⟨R, hR, hform⟩ := pathResolve_clean_form cwd (options.rootDir.getD cwd)
  have hbad : ∃ pe ∈ files, ∃ msg,
      computePaths (pathResolve cwd (options.rootDir.getD cwd)) pe.1 = .error msg := by
    obtain ⟨pe, hpe, hcase⟩ := h
    refine ⟨pe, hpe, ?_⟩
    rw [hform]
    exact computePaths_escape_error R hR pe.1 (by rwa [hform] at hcase)
  obtain ⟨msg, hmsg⟩ := normalizeFilesGo_error _ files [] hbad
  refine ⟨msg, ?_⟩
  unfold syncConfigs
  rw [show normalizeFiles files (pathResolve cwd (options.rootDir.getD cwd))
      = normalizeFilesGo (pathResolve cwd (options.rootDir.getD cwd)) files []
      from rfl, hmsg]

/-- Witness for C6: one escaping target (`../x`) and one absolute target
(`/etc/passwd`) each fail the whole call with the file system untouched. -/
theorem C6_root_escape_witness :
    (∃ msg, syncConfigs "/r".data
      [("../x".data, { contents := "x".data }),
       ("a.txt".data, { contents := "y".data })] {} [] = (.error msg, [])) ∧
    (∃ msg, syncConfigs "/r".data
      [("a.txt".data, { contents := "y".data }),
       ("/etc/passwd".data, { contents := "x".data })] {} [] = (.error msg, [])) := by
  constructor
  · exact C6_root_escape "/r".data
      [("../x".data, { contents := "x".data }),
       ("a.txt".data, { contents := "y".data })] {} []
      ⟨("../x".data, { contents := "x".data }), by decide, Or.inr (by decide)⟩
  · exact C6_root_escape "/r".data
      [("a.txt".data, { contents := "y".data }),
       ("/etc/passwd".data, { contents := "x".data })] {} []
      ⟨("/etc/passwd".data, { contents := "x".data }), by decide, Or.inl (by decide)⟩

/-! ## Claim C9 -/

theorem getLast_opt_mem {α : Type} :
    ∀ (l : List α) (x : α), l.getLast? = some x → x ∈ l := by
  intro l
  induction l with
  | nil =>
    intro x hx
    simp at hx
  | cons a rest ih =>
    intro x hx
    cases rest with
    | nil =>
      simp at hx
      subst hx
      simp
    | cons b bs =>
      rw [List.getLast?_cons_cons] at hx
      exact List.mem_cons_of_mem a (ih x hx)

theorem getLast_opt_append {α : Type} (A B : List α) (x : α)
    (hB : B.getLast? = some x) : (A ++ B).getLast? = some x := by
  rw [List.getLast?_append, hB]
  rfl

theorem intercalate_append₂ (s : Str) :
    ∀ (A : List Str), A ≠ [] → ∀ (B : List Str), B ≠ [] →
      List.intercalate s (A ++ B) =
        List.intercalate s A ++ s ++ List.intercalate s B := by
  intro A
  induction A with
  | nil =>
    intro hA
    exact absurd rfl hA
  | cons x xs ih =>
    intro _ B hB
    cases xs with
    | nil =>
      cases B with
      | nil => exact absurd rfl hB
      | cons b bs =>
        rw [List.singleton_append, intercalate_cons₂, intercalate_single]
    | cons y ys =>
      rw [List.cons_append, List.cons_append, intercalate_cons₂,
        ← List.cons_append, ih (by simp) B hB, intercalate_cons₂]
      simp [List.append_assoc]

theorem intercalate_getLast (s : Str) :
    ∀ (L : List Str) (x : Str), L.getLast? = some x → x ≠ [] →
      (List.intercalate s L).getLast? = x.getLast? := by
  intro L
  induction L with
  | nil =>
    intro x hx
    simp at hx
  | cons a rest ih =>
    intro x hx hxne
    cases rest with
    | nil =>
      simp at hx
      subst hx
      rw [intercalate_single]
    | cons b bs =>
      rw [List.getLast?_cons_cons] at hx
      have hsome : x.getLast?.isSome = true := List.getLast?_isSome.mpr hxne
      obtain ⟨c, hc⟩ := Option.isSome_iff_exists.mp hsome
      rw [intercalate_cons₂,
        getLast_opt_append _ _ c (by rw [ih x hx hxne, hc]), hc]

/-- The intercalation of lines whose final line is non-empty and
newline-free does not end in a newline. -/
theorem intercalate_getLast_ne (L : List Str) (x : Str)
    (hx : L.getLast? = some x) (hxne : x ≠ []) (hxnl : '\n' ∉ x) :
    (List.intercalate ['\n'] L).getLast? ≠ some '\n' := by
  rw [intercalate_getLast ['\n'] L x hx hxne]
  intro hc
  exact hxnl (getLast_opt_mem x '\n' hc)

theorem buildLines_nil (lwb : List Str) :
    buildLines lwb [] = trimTrailingEmptyLines lwb := by
  unfold buildLines
  simp

/-- C9: invariants of the rebuilt ignore-file content, for newline-free kept
lines and non-empty newline-free entries: (1) when kept lines and entries
are both present, exactly one blank line — the two consecutive newlines —
separates the kept lines from the marker line; (2) when no kept line
remains, the content starts directly at the marker with no separator;
(3) every non-empty output ends in exactly one trailing newline; (4) with
no entries and no kept lines the output is the empty string. -/
theorem C9_build_invariants (lwb E : List Str)
    (hnl : ∀ l ∈ lwb, '\n' ∉ l)
    (hEg : ∀ e ∈ E, '\n' ∉ e ∧ e ≠ []) :
    (trimTrailingEmptyLines lwb ≠ [] → E ≠ [] →
      buildGitignoreContent lwb E =
        List.intercalate ['\n'] (trimTrailingEmptyLines lwb) ++ ['\n', '\n'] ++
          MANAGED_COMMENT ++ ['\n'] ++ List.intercalate ['\n'] E ++ ['\n']) ∧
    (trimTrailingEmptyLines lwb = [] → E ≠ [] →
      buildGitignoreContent lwb E =
        MANAGED_COMMENT ++ ['\n'] ++ List.intercalate ['\n'] E ++ ['\n']) ∧
    (buildGitignoreContent lwb E ≠ [] →
      (buildGitignoreContent lwb E).getLast? = some '\n' ∧
      (buildGitignoreContent lwb E).dropLast.getLast? ≠ some '\n') ∧
    (trimTrailingEmptyLines lwb = [] → E = [] →
      buildGitignoreContent lwb E = []) := by
  have hlast : buildLines lwb E ≠ [] →
      ∃ x, (buildLines lwb E).getLast? = some x ∧ x ≠ [] ∧ '\n' ∉ x := by
    intro hLne
    cases E with
    | nil =>
      rw [buildLines_nil] at hLne ⊢
      obtain ⟨x, hx⟩ := Option.isSome_iff_exists.mp (List.getLast?_isSome.mpr hLne)
      refine ⟨x, hx, ?_, ?_⟩
      · intro hxe
        exact trimTrailing_getLast lwb x hx (by rw [hxe]; rfl)
      · exact hnl x (trimTrailing_subset lwb x (getLast_opt_mem _ x hx))
    | cons e es =>
      rw [buildLines_eq lwb (e :: es) (by simp)]
      obtain ⟨x, hx⟩ := Option.isSome_iff_exists.mp
        (List.getLast?_isSome.mpr (show (e :: es) ≠ [] by simp))
      obtain ⟨hxnl, hxne⟩ := hEg x (getLast_opt_mem _ x hx)
      refine ⟨x, ?_, hxne, hxnl⟩
      exact getLast_opt_append _ _ x (by rw [List.getLast?_cons_cons]; exact hx)
  have hMstep : ∀ (F : List Str), F ≠ [] →
      List.intercalate ['\n'] (MANAGED_COMMENT :: F)
        = MANAGED_COMMENT ++ ['\n'] ++ List.intercalate ['\n'] F := by
    intro F hF
    cases F with
    | nil => exact absurd rfl hF
    | cons e es => rw [intercalate_cons₂]
  refine ⟨?_, ?_, ?_, ?_⟩
  · intro h0 hE
    have hL := buildLines_eq lwb E hE
    rw [if_neg h0] at hL
    unfold buildGitignoreContent linesToContent
    rw [hL]
    have hne' : List.intercalate ['\n']
        ((trimTrailingEmptyLines lwb ++ [[]]) ++ MANAGED_COMMENT :: E) ≠ [] :=
      intercalate_ne_nil_of_mem _ _ MANAGED_COMMENT
        (List.mem_append_right _ (List.mem_cons_self _ _)) (by decide)
    rw [if_pos hne',
      intercalate_append₂ ['\n'] _ (by simp) _ (by simp),
      intercalate_append₂ ['\n'] _ h0 [[]] (by simp),
      intercalate_single, hMstep E hE]
    simp [List.append_assoc]
  · intro h0 hE
    have hL := buildLines_eq lwb E hE
    rw [if_pos h0, h0] at hL
    simp only [List.nil_append] at hL
    unfold buildGitignoreContent linesToContent
    rw [hL]
    have hne' : List.intercalate ['\n'] (MANAGED_COMMENT :: E) ≠ [] :=
      intercalate_ne_nil_of_mem _ _ MANAGED_COMMENT (List.mem_cons_self _ _)
        (by decide)
    rw [if_pos hne', hMstep E hE]
  · intro hne
    unfold buildGitignoreContent linesToContent at hne ⊢
    by_cases hB : List.intercalate ['\n'] (buildLines lwb E) ≠ []
    · rw [if_pos hB] at hne ⊢
      refine ⟨List.getLast?_concat _, ?_⟩
      rw [List.dropLast_concat]
      have hLne : buildLines lwb E ≠ [] := by
        intro h0
        rw [h0, intercalate_nil'] at hB
        exact hB rfl
      obtain ⟨x, hx, hxne, hxnl⟩ := hlast hLne
      exact intercalate_getLast_ne _ x hx hxne hxnl
    · rw [if_neg hB] at hne
      exact absurd rfl hne
  · intro h0 hE0
    subst hE0
    unfold buildGitignoreContent linesToContent
    rw [buildLines_nil, h0, intercalate_nil']
    simp

/-- Witness for C9: one kept line `a` and one entry `e` produce exactly the
separator-blank, marker, entry and single trailing newline. -/
theorem C9_build_invariants_witness :
    buildGitignoreContent ["a".data] ["e".data] =
      List.intercalate ['\n'] (trimTrailingEmptyLines ["a".data]) ++
        ['\n', '\n'] ++ MANAGED_COMMENT ++ ['\n'] ++
        List.intercalate ['\n'] ["e".data] ++ ['\n'] :=
  (C9_build_invariants ["a".data] ["e".data] (by decide) (by decide)).1
    (by decide) (by decide)

/-! ## Claim C5 -/

/-- Counterexample to C5 as stated: the prior content `"a\n\n\n"` has no
managed block at all, so all of its lines lie outside the block and no
adjoining separator exists; yet after the rewrite with entry set `["e"]`
the lines outside the block of the new file are just `["a"]` — the
pre-existing blank lines were deleted by the trailing-blank trim, so the
content outside the managed block did not stay unchanged. -/
theorem C5_frame_cex :
    splitAtMarker (splitLines "a\n\n\n".data) = none ∧
    linesOutsideBlock (buildGitignoreContent
        (extractManagedBlock "a\n\n\n".data).linesWithoutBlock ["e".data]) ≠
      linesOutsideBlock "a\n\n\n".data := by
  decide

/-- C5 (amended): for well-formed entries, the rewrite keeps exactly the
extraction's kept lines — the old file's lines outside the managed block,
minus one separating blank line and minus any trailing blank lines — as an
unchanged prefix of the new file, followed only by the optional blank
separator, the marker line and the entries; and re-extracting the new file
recovers those kept lines and entries exactly. -/
theorem C5_frame (old : Str) (E : List Str) (hE : E ≠ [])
    (hmark : (splitLines old).count MANAGED_COMMENT ≤ 1)
    (hcr : ∀ l ∈ (extractManagedBlock old).linesWithoutBlock,
      l.getLast? ≠ some '\r')
    (hEgood : ∀ e ∈ E, trimChars e = e ∧ e ≠ [] ∧
      startsWithChar '#' e = false ∧ '\n' ∉ e) :
    splitLines (buildGitignoreContent
        (extractManagedBlock old).linesWithoutBlock E) =
      (extractManagedBlock old).linesWithoutBlock ++
        (if (extractManagedBlock old).linesWithoutBlock = [] then []
          else [[]]) ++
        MANAGED_COMMENT :: E ∧
    extractManagedBlock (buildGitignoreContent
        (extractManagedBlock old).linesWithoutBlock E) =
      ⟨E, (extractManagedBlock old).linesWithoutBlock⟩ := by
  set lwb := (extractManagedBlock old).linesWithoutBlock with hlwb_def
  have hlwb_nl : ∀ l ∈ lwb, '\n' ∉ l := fun l hl =>
    splitLines_pieces_no_newline old l (extract_lwb_subset old l hl)
  have hlwb_trim : trimTrailingEmptyLines lwb = lwb := extract_lwb_trimmed old
  have hlwbM : MANAGED_COMMENT ∉ lwb := extract_lwb_no_marker old hmark
  constructor
  · have hL : buildLines lwb E
        = (lwb ++ (if lwb = [] then [] else [[]])) ++ MANAGED_COMMENT :: E := by
      rw [buildLines_eq lwb E hE, hlwb_trim]
    have hLgood : ∀ p ∈ buildLines lwb E,
        '\n' ∉ p ∧ p.getLast? ≠ some '\r' := by
      intro p hp
      rw [hL] at hp
      rcases List.mem_append.mp hp with h1 | h1
      · rcases List.mem_append.mp h1 with h2 | h2
        · exact ⟨hlwb_nl p h2, hcr p h2⟩
        · split at h2
          · simp at h2
          · simp at h2
            subst h2
            exact ⟨by simp, by simp⟩
      · rcases List.mem_cons.mp h1 with h2 | h2
        · subst h2
          exact ⟨by decide, by decide⟩
        · obtain ⟨het, hene, _, henl⟩ := hEgood p h2
          exact ⟨henl, trimmed_entry_no_cr p het⟩
    have hLne : buildLines lwb E ≠ [] := by
      rw [hL]
      simp
    have hcontent : buildGitignoreContent lwb E
        = List.intercalate ['\n'] (buildLines lwb E) ++ ['\n'] := by
      unfold buildGitignoreContent linesToContent
      rw [if_pos]
      exact intercalate_ne_nil_of_mem ['\n'] (buildLines lwb E) MANAGED_COMMENT
        (by rw [hL]; exact List.mem_append_right _ (List.mem_cons_self _ _))
        (by decide)
    rw [hcontent, splitLines_join _ hLne hLgood, hL]
  · exact extract_build_roundtrip lwb E hlwb_nl hcr hlwbM hlwb_trim hE hEgood

/-- Witness for C5 (amended), at a prior file that already carries a block:
the kept line survives unchanged in first position and re-extraction
recovers the new entry set. -/
theorem C5_frame_witness :
    splitLines (buildGitignoreContent
        (extractManagedBlock
          "keep\n\n# Managed by cpconfig\nold\n".data).linesWithoutBlock
        ["e".data]) =
      (extractManagedBlock
          "keep\n\n# Managed by cpconfig\nold\n".data).linesWithoutBlock ++
        (if (extractManagedBlock
            "keep\n\n# Managed by cpconfig\nold\n".data).linesWithoutBlock = []
          then [] else [[]]) ++
        MANAGED_COMMENT :: ["e".data] ∧
    extractManagedBlock (buildGitignoreContent
        (extractManagedBlock
          "keep\n\n# Managed by cpconfig\nold\n".data).linesWithoutBlock
        ["e".data]) =
      ⟨["e".data],
        (extractManagedBlock
          "keep\n\n# Managed by cpconfig\nold\n".data).linesWithoutBlock⟩ :=
  C5_frame "keep\n\n# Managed by cpconfig\nold\n".data ["e".data]
    (by decide) (by decide) (by decide) (by decide)

/-! ## Claim C10 -/

theorem forall₂_comp {α β γ : Type} {r : α → β → Prop} {s : β → γ → Prop}
    {t : α → γ → Prop} (h : ∀ a b c, r a b → s b c → t a c) :
    ∀ {l₁ : List α} {l₂ : List β} {l₃ : List γ},
      List.Forall₂ r l₁ l₂ → List.Forall₂ s l₂ l₃ → List.Forall₂ t l₁ l₃ := by
  intro l₁
  induction l₁ with
  | nil =>
    intro l₂ l₃ h12 h23
    cases h12
    cases h23
    exact List.Forall₂.nil
  | cons a as ih =>
    intro l₂ l₃ h12 h23
    cases h12 with
    | cons hab h12' =>
      cases h23 with
      | cons hbc h23' =>
        exact List.Forall₂.cons (h _ _ _ hab hbc) (ih h12' h23')

/-- Counterexample to C10 as stated: the declared target `"."` normalizes
to the empty relative path, so although it did not opt out of ignore
tracking (`gitignore` is unset, hence not `some false`), its result record
carries `gitignored = false`: the empty entry is dropped by JS truthiness
before reaching the record. -/
theorem C10_result_records_cex :
    ((syncConfigs "/r".data [(".".data, { contents := "x".data })] {} []).1.map
        (fun res => res.files.map (fun r => (r.gitignored, r.path))))
      = .ok [(false, [])] ∧
    ({ contents := "x".data } : ConfigEntry).gitignore ≠ some false := by
  decide

/-- C10 (amended): every successful result pairs the declared targets, in
declaration order, one-to-one with the result records; each record's `path`
and `absolutePath` are the target's computed relative and absolute paths,
`skipped` holds exactly when the action is `unchanged`, and `gitignored`
holds exactly when the target did not opt out AND its normalized relative
path is non-empty. -/
theorem C10_result_records (cwd : Str) (files : ConfigMap)
    (options : SyncOptions) (fs : FS) (res : SyncResult)
    (hres : (syncConfigs cwd files options fs).1 = .ok res) :
    List.Forall₂
      (fun (pe : Str × ConfigEntry) (r : FileSyncResult) =>
        computePaths (pathResolve cwd (options.rootDir.getD cwd)) pe.1
          = .ok (r.path, r.absolutePath) ∧
        r.skipped = decide (r.action = FileAction.unchanged) ∧
        r.gitignored = decide (pe.2.gitignore ≠ some false ∧ r.path ≠ []))
      files res.files := by
  unfold syncConfigs at hres
  cases hn : normalizeFiles files (pathResolve cwd (options.rootDir.getD cwd)) with
  | error e =>
    rw [hn] at hres
    exact absurd hres (by simp)
  | ok nfs =>
    rw [hn] at hres
    simp only [Except.ok.injEq] at hres
    have hfiles : res.files = (runFiles (options.dryRun.getD false) nfs fs).1 := by
      rw [← hres]
    rw [hfiles]
    refine forall₂_comp ?_ (normalizeFiles_shape files _ nfs hn)
      (runFiles_results_shape (options.dryRun.getD false) nfs fs)
    rintro pe nf r ⟨hcp, hcont, hgi, hmode⟩ ⟨hpath, habs, hskip, hgig⟩
    refine ⟨by rw [hpath, habs]; exact hcp, hskip, ?_⟩
    rw [hgig, hgi, hpath]
    by_cases hopt : pe.2.gitignore = some false
    · rw [if_pos hopt]
      simp [hopt]
    · rw [if_neg hopt]
      simp [hopt]

/-- Witness for C10 (amended) at a single created target. -/
theorem C10_result_records_witness :
    List.Forall₂
      (fun (pe : Str × ConfigEntry) (r : FileSyncResult) =>
        computePaths (pathResolve "/r".data
            ((({} : SyncOptions)).rootDir.getD "/r".data)) pe.1
          = .ok (r.path, r.absolutePath) ∧
        r.skipped = decide (r.action = FileAction.unchanged) ∧
        r.gitignored = decide (pe.2.gitignore ≠ some false ∧ r.path ≠ []))
      [("a.txt".data, { contents := "x".data })]
      ({ rootDir := "/r".data
         files := [{ path := "a.txt".data
                     absolutePath := "/r/a.txt".data
                     action := FileAction.created
                     skipped := false
                     gitignored := true }]
         gitignore := { path := "/r/.gitignore".data
                        updated := true
                        added := ["a.txt".data]
                        removed := []
                        skipped := false } } : SyncResult).files :=
  C10_result_records "/r".data [("a.txt".data, { contents := "x".data })] {} []
    _ (by decide)

/-! ## Claim C3 -/

theorem syncGitignore_dry_fs (gitignorePath : Str) (entries : List Str)
    (fs : FS) : (syncGitignore gitignorePath entries true fs).2 = fs := by
  by_cases h0 : gitignoreUniqueEntries entries = []
  · rw [syncGitignore_skipped _ _ _ _ h0]
  · by_cases h1 : gitignoreExistingBlock ((fsRead fs gitignorePath).getD [])
        = gitignoreUniqueEntries entries
    · rw [syncGitignore_same _ _ _ _ h0 h1]
    · rw [syncGitignore_rewrite _ _ _ _ h0 h1]
      rfl

/-- The ignore manager's report depends on the file system only through the
ignore file's current contents, and not on the dry-run flag. -/
theorem syncGitignore_congr (gitignorePath : Str) (entries : List Str)
    (d d' : Bool) (fs fs' : FS)
    (hread : fsRead fs' gitignorePath = fsRead fs gitignorePath) :
    (syncGitignore gitignorePath entries d' fs').1
      = (syncGitignore gitignorePath entries d fs).1 := by
  by_cases h0 : gitignoreUniqueEntries entries = []
  · rw [syncGitignore_skipped _ _ _ _ h0, syncGitignore_skipped _ _ _ _ h0]
  · by_cases h1 : gitignoreExistingBlock ((fsRead fs gitignorePath).getD [])
        = gitignoreUniqueEntries entries
    · rw [syncGitignore_same _ _ _ _ h0 h1,
        syncGitignore_same _ _ _ _ h0 (by rw [hread]; exact h1)]
    · rw [syncGitignore_rewrite _ _ _ _ h0 h1,
        syncGitignore_rewrite _ _ _ _ h0 (by rw [hread]; exact h1)]
      simp only [hread]

/-- Counterexample to C3 as stated: when the ignore file itself is a
declared target, the live run rewrites it before the ignore manager reads
it, while the dry run reads the original content; here the prior file
carries a managed block with entry `old`, so the dry run reports `old` as
removed while the live run — whose file reconciler first overwrites the
ignore file with `x` — reports nothing removed.  The two result objects
differ. -/
theorem C3_dry_run_cex :
    ((syncConfigs "/r".data [(".gitignore".data, { contents := "x".data })]
        { dryRun := some true }
        [("/r/.gitignore".data, "# Managed by cpconfig\nold\n".data)]).1.map
      (fun res => res.gitignore.removed))
      ≠
    ((syncConfigs "/r".data [(".gitignore".data, { contents := "x".data })]
        { dryRun := some false }
        [("/r/.gitignore".data, "# Managed by cpconfig\nold\n".data)]).1.map
      (fun res => res.gitignore.removed)) := by
  decide

/-- C3 (amended): a dry run leaves the file system, including the ignore
file, completely unmodified — for every input; and provided no declared
target resolves to the ignore file's own path, it also returns exactly the
result object of a live run from the same state. -/
theorem C3_dry_run (cwd : Str) (files : ConfigMap) (rootOpt : Option Str)
    (gipathOpt : Option Str) (fs : FS) :
    (syncConfigs cwd files
        { rootDir := rootOpt, dryRun := some true, gitignorePath := gipathOpt }
        fs).2 = fs ∧
    ((∀ nfs, normalizeFiles files (pathResolve cwd (rootOpt.getD cwd))
        = .ok nfs →
      ∀ nf ∈ nfs, nf.absolutePath ≠
        resolveGitignorePath (pathResolve cwd (rootOpt.getD cwd)) gipathOpt) →
      (syncConfigs cwd files
          { rootDir := rootOpt, dryRun := some true, gitignorePath := gipathOpt }
          fs).1
        = (syncConfigs cwd files
            { rootDir := rootOpt, dryRun := some false,
              gitignorePath := gipathOpt } fs).1) := by
  unfold syncConfigs
  simp only [Option.getD_some]
  cases hn : normalizeFiles files (pathResolve cwd (rootOpt.getD cwd)) with
  | error e => exact ⟨rfl, fun _ => rfl⟩
  | ok nfs =>
    have hdf : (runFiles true nfs fs).2 = fs := runFiles_dry_fs nfs fs
    have hgi2 : (syncGitignore
        (resolveGitignorePath (pathResolve cwd (rootOpt.getD cwd)) gipathOpt)
        (gitignoreEntriesOf nfs) true (runFiles true nfs fs).2).2 = fs := by
      rw [hdf]
      exact syncGitignore_dry_fs _ _ fs
    constructor
    · show (syncGitignore
          (resolveGitignorePath (pathResolve cwd (rootOpt.getD cwd)) gipathOpt)
          (gitignoreEntriesOf nfs) true (runFiles true nfs fs).2).2 = fs
      exact hgi2
    · intro hcol
      have habs_nodup := normalizeFiles_abs_nodup files cwd (rootOpt.getD cwd) nfs hn
      have hcol' := hcol nfs rfl
      have hrec : (runFiles true nfs fs).1 = (runFiles false nfs fs).1 :=
        runFiles_results_congr false true nfs fs fs (fun nf _ => rfl) habs_nodup
      have hread : fsRead (runFiles false nfs fs).2
          (resolveGitignorePath (pathResolve cwd (rootOpt.getD cwd)) gipathOpt)
          = fsRead fs
            (resolveGitignorePath (pathResolve cwd (rootOpt.getD cwd)) gipathOpt) :=
        runFiles_read_other false nfs fs _ (fun nf hnf => (hcol' nf hnf).symm)
      have hgi1 : (syncGitignore
          (resolveGitignorePath (pathResolve cwd (rootOpt.getD cwd)) gipathOpt)
          (gitignoreEntriesOf nfs) true (runFiles true nfs fs).2).1
          = (syncGitignore
              (resolveGitignorePath (pathResolve cwd (rootOpt.getD cwd)) gipathOpt)
              (gitignoreEntriesOf nfs) false (runFiles false nfs fs).2).1 := by
        rw [hdf]
        exact syncGitignore_congr _ _ false true _ fs hread.symm
      show Except.ok
          ({ rootDir := pathResolve cwd (rootOpt.getD cwd)
             files := (runFiles true nfs fs).1
             gitignore := (syncGitignore
               (resolveGitignorePath (pathResolve cwd (rootOpt.getD cwd)) gipathOpt)
               (gitignoreEntriesOf nfs) true (runFiles true nfs fs).2).1 } : SyncResult)
        = Except.ok
          ({ rootDir := pathResolve cwd (rootOpt.getD cwd)
             files := (runFiles false nfs fs).1
             gitignore := (syncGitignore
               (resolveGitignorePath (pathResolve cwd (rootOpt.getD cwd)) gipathOpt)
               (gitignoreEntriesOf nfs) false (runFiles false nfs fs).2).1 } : SyncResult)
      rw [hrec, hgi1]

/-- Witness for C3 (amended) at a single target that is not the ignore
file, with the inner no-collision proviso discharged concretely. -/
theorem C3_dry_run_witness :
    (syncConfigs "/r".data [("a.txt".data, { contents := "x".data })]
        { rootDir := none, dryRun := some true, gitignorePath := none } []).2
      = [] ∧
    (syncConfigs "/r".data [("a.txt".data, { contents := "x".data })]
        { rootDir := none, dryRun := some true, gitignorePath := none } []).1
      = (syncConfigs "/r".data [("a.txt".data, { contents := "x".data })]
          { rootDir := none, dryRun := some false, gitignorePath := none } []).1 :=
  ⟨(C3_dry_run "/r".data [("a.txt".data, { contents := "x".data })]
      none none []).1,
   (C3_dry_run "/r".data [("a.txt".data, { contents := "x".data })]
      none none []).2
    (by
      intro nfs hn nf hnf
      rw [show normalizeFiles [("a.txt".data, { contents := "x".data })]
          (pathResolve "/r".data ((none : Option Str).getD "/r".data))
          = .ok [{ relativePath := "a.txt".data
                   absolutePath := "/r/a.txt".data
                   contents := "x".data
                   gitignoreEntry := some "a.txt".data
                   mode := none }] from by decide] at hn
      injection hn with h
      subst h
      simp only [List.mem_singleton] at hnf
      subst hnf
      decide)⟩

/-! ## Claim C2 -/

/-- Unfolding of a successful `syncConfigs` call. -/
theorem syncConfigs_ok_eq (cwd : Str) (files : ConfigMap)
    (rootOpt gipathOpt : Option Str) (d : Bool) (fs : FS)
    (nfs : List NormalizedConfigFile)
    (hn : normalizeFiles files (pathResolve cwd (rootOpt.getD cwd)) = .ok nfs) :
    syncConfigs cwd files
        { rootDir := rootOpt, dryRun := some d, gitignorePath := gipathOpt } fs
      = (.ok { rootDir := pathResolve cwd (rootOpt.getD cwd)
               files := (runFiles d nfs fs).1
               gitignore := (syncGitignore
                 (resolveGitignorePath (pathResolve cwd (rootOpt.getD cwd))
                   gipathOpt)
                 (gitignoreEntriesOf nfs) d (runFiles d nfs fs).2).1 },
         (syncGitignore
           (resolveGitignorePath (pathResolve cwd (rootOpt.getD cwd)) gipathOpt)
           (gitignoreEntriesOf nfs) d (runFiles d nfs fs).2).2) := by
  unfold syncConfigs
  simp only [Option.getD_some]
  rw [hn]

/-- Unfolding of a failing `syncConfigs` call. -/
theorem syncConfigs_error_eq (cwd : Str) (files : ConfigMap)
    (rootOpt gipathOpt : Option Str) (d : Bool) (fs : FS) (e : String)
    (hn : normalizeFiles files (pathResolve cwd (rootOpt.getD cwd)) = .error e) :
    syncConfigs cwd files
        { rootDir := rootOpt, dryRun := some d, gitignorePath := gipathOpt } fs
      = (.error e, fs) := by
  unfold syncConfigs
  simp only [Option.getD_some]
  rw [hn]

/-- The ignore manager touches no path other than the ignore file's. -/
theorem syncGitignore_read_other (gitignorePath : Str) (entries : List Str)
    (d : Bool) (fs : FS) (p : Str) (hp : p ≠ gitignorePath) :
    fsRead (syncGitignore gitignorePath entries d fs).2 p = fsRead fs p := by
  by_cases h0 : gitignoreUniqueEntries entries = []
  · rw [syncGitignore_skipped _ _ _ _ h0]
  · by_cases h1 : gitignoreExistingBlock ((fsRead fs gitignorePath).getD [])
        = gitignoreUniqueEntries entries
    · rw [syncGitignore_same _ _ _ _ h0 h1]
    · rw [syncGitignore_rewrite _ _ _ _ h0 h1]
      cases d
      · exact fsRead_fsWrite_ne fs gitignorePath _ p hp
      · rfl

theorem map_id_of_fix (l : List Str)
    (h : ∀ e ∈ l, normalizeGitignoreEntry e = e) :
    l.map normalizeGitignoreEntry = l := by
  induction l with
  | nil => rfl
  | cons e rest ih =>
    rw [List.map_cons, h e (List.mem_cons_self e rest),
      ih (fun x hx => h x (List.mem_cons_of_mem e hx))]

/-- Rebuilding the ignore file from the current kept lines and the desired
entry set leaves a file whose managed block reads back as exactly that
entry set, provided the entries are fixed points of the entry normalizer
and the prior file is well-formed (at most one marker, no line ending in a
carriage return). -/
theorem existingBlock_build (cur : Str) (entries : List Str)
    (hmark : (splitLines cur).count MANAGED_COMMENT ≤ 1)
    (hcr : ∀ l ∈ splitLines cur, l.getLast? ≠ some '\r')
    (hne : gitignoreUniqueEntries entries ≠ [])
    (hfix : ∀ e ∈ gitignoreUniqueEntries entries,
      normalizeGitignoreEntry e = e ∧ '\n' ∉ e) :
    gitignoreExistingBlock (buildGitignoreContent
        (extractManagedBlock cur).linesWithoutBlock
        (gitignoreUniqueEntries entries))
      = gitignoreUniqueEntries entries := by
  have hEgood : ∀ e ∈ gitignoreUniqueEntries entries, trimChars e = e ∧
      e ≠ [] ∧ startsWithChar '#' e = false ∧ '\n' ∉ e := by
    intro e he
    have h1 := (gitignoreUniqueEntries_mem entries e he).1
    have h2 := hfix e he
    have h3 := normalizeGitignoreEntry_fix e h2.1 h1
    exact ⟨h3.1, h1, h3.2, h2.2⟩
  have hround := extract_build_roundtrip
    (extractManagedBlock cur).linesWithoutBlock (gitignoreUniqueEntries entries)
    (fun l hl => splitLines_pieces_no_newline cur l (extract_lwb_subset cur l hl))
    (fun l hl => hcr l (extract_lwb_subset cur l hl))
    (extract_lwb_no_marker cur hmark)
    (extract_lwb_trimmed cur)
    hne hEgood
  unfold gitignoreExistingBlock
  rw [hround]
  simp only
  rw [map_id_of_fix _ (fun e he => (hfix e he).1),
    filter_all _ (fun e he => by simp [(hEgood e he).2.1])]

/-- Counterexample to C2 as stated: with the ignore file itself as the only
declared target, the first call first writes `hello` to it and then the
ignore manager rewrites it to carry a managed block; the second call
therefore finds it differing from `hello` again — action `updated`, and
the ignore manager rewrites once more, `gitignore.updated = true`. -/
theorem C2_idempotent_cex :
    ((syncConfigs "/r".data [(".gitignore".data, { contents := "hello".data })]
        { dryRun := some false }
        ((syncConfigs "/r".data
          [(".gitignore".data, { contents := "hello".data })]
          { dryRun := some false } []).2)).1.map
      (fun res => (res.files.map (fun r => r.action), res.gitignore.updated)))
      = .ok ([FileAction.updated], true) := by
  decide

/-- C2 (amended): after one successful non-dry-run call, a second call with
identical input returns action `unchanged` (and `skipped`) for every file
and `gitignore.updated = false`, and changes no file system state —
provided no declared target resolves to the ignore file's own path, the
prior ignore file is well-formed (at most one marker line, no line ending
in a carriage return), and every tracked entry is a fixed point of the
entry normalizer containing no newline. -/
theorem C2_idempotent (cwd : Str) (files : ConfigMap)
    (rootOpt gipathOpt : Option Str) (fs : FS) (res1 : SyncResult)
    (hres1 : (syncConfigs cwd files
        { rootDir := rootOpt, dryRun := some false, gitignorePath := gipathOpt }
        fs).1 = .ok res1)
    (hcol : ∀ nfs, normalizeFiles files (pathResolve cwd (rootOpt.getD cwd))
        = .ok nfs →
      ∀ nf ∈ nfs, nf.absolutePath ≠
        resolveGitignorePath (pathResolve cwd (rootOpt.getD cwd)) gipathOpt)
    (hmark : (splitLines ((fsRead fs
        (resolveGitignorePath (pathResolve cwd (rootOpt.getD cwd))
          gipathOpt)).getD [])).count MANAGED_COMMENT ≤ 1)
    (hcr : ∀ l ∈ splitLines ((fsRead fs
        (resolveGitignorePath (pathResolve cwd (rootOpt.getD cwd))
          gipathOpt)).getD []), l.getLast? ≠ some '\r')
    (hfix : ∀ nfs, normalizeFiles files (pathResolve cwd (rootOpt.getD cwd))
        = .ok nfs →
      ∀ e ∈ gitignoreUniqueEntries (gitignoreEntriesOf nfs),
        normalizeGitignoreEntry e = e ∧ '\n' ∉ e) :
    ∃ res2,
      syncConfigs cwd files
          { rootDir := rootOpt, dryRun := some false, gitignorePath := gipathOpt }
          ((syncConfigs cwd files
            { rootDir := rootOpt, dryRun := some false,
              gitignorePath := gipathOpt } fs).2)
        = (.ok res2,
           (syncConfigs cwd files
             { rootDir := rootOpt, dryRun := some false,
               gitignorePath := gipathOpt } fs).2) ∧
      (∀ r ∈ res2.files, r.action = FileAction.unchanged ∧ r.skipped = true) ∧
      res2.gitignore.updated = false := by
  cases hn : normalizeFiles files (pathResolve cwd (rootOpt.getD cwd)) with
  | error e =>
    rw [syncConfigs_error_eq cwd files rootOpt gipathOpt false fs e hn] at hres1
    exact absurd hres1 (by simp)
  | ok nfs =>
    have habs_nodup := normalizeFiles_abs_nodup files cwd (rootOpt.getD cwd) nfs hn
    have hcol' := hcol nfs hn
    have hfix' := hfix nfs hn
    have hcall1 := syncConfigs_ok_eq cwd files rootOpt gipathOpt false fs nfs hn
    have hfs1 : (syncConfigs cwd files
        { rootDir := rootOpt, dryRun := some false, gitignorePath := gipathOpt }
        fs).2
        = (syncGitignore
            (resolveGitignorePath (pathResolve cwd (rootOpt.getD cwd)) gipathOpt)
            (gitignoreEntriesOf nfs) false (runFiles false nfs fs).2).2 := by
      rw [hcall1]
    set GP := resolveGitignorePath (pathResolve cwd (rootOpt.getD cwd)) gipathOpt
      with hGP
    set fsA := (runFiles false nfs fs).2 with hfsA
    set E := gitignoreUniqueEntries (gitignoreEntriesOf nfs) with hEdef
    have hreadA : fsRead fsA GP = fsRead fs GP :=
      runFiles_read_other false nfs fs GP (fun nf hnf => (hcol' nf hnf).symm)
    have hwrittenA : ∀ nf ∈ nfs, fsRead fsA nf.absolutePath = some nf.contents :=
      runFiles_live_written nfs fs habs_nodup
    set fs1 := (syncGitignore GP (gitignoreEntriesOf nfs) false fsA).2
      with hfs1def
    have hwritten2 : ∀ nf ∈ nfs, fsRead fs1 nf.absolutePath = some nf.contents := by
      intro nf hnf
      rw [hfs1def,
        syncGitignore_read_other GP _ false fsA nf.absolutePath (hcol' nf hnf)]
      exact hwrittenA nf hnf
    have hkey : ∃ g2 : GitignoreResult, g2.updated = false ∧
        syncGitignore GP (gitignoreEntriesOf nfs) false fs1 = (g2, fs1) := by
      by_cases hE0 : E = []
      · exact ⟨{ path := GP, updated := false, added := [], removed := []
                 skipped := true }, rfl,
          syncGitignore_skipped GP _ false fs1 hE0⟩
      · by_cases hsame1 : gitignoreExistingBlock ((fsRead fsA GP).getD []) = E
        · have hfs1A : fs1 = fsA := by
            rw [hfs1def, syncGitignore_same GP _ false fsA hE0 hsame1]
          refine ⟨{ path := GP, updated := false, added := [], removed := []
                    skipped := false }, rfl, ?_⟩
          rw [hfs1A]
          exact syncGitignore_same GP _ false fsA hE0 hsame1
        · have hfs1W : fs1 = fsWrite fsA GP (buildGitignoreContent
              (extractManagedBlock ((fsRead fsA GP).getD [])).linesWithoutBlock
              E) := by
            rw [hfs1def, syncGitignore_rewrite GP _ false fsA hE0 hsame1, hEdef]
            rfl
          have hread1 : fsRead fs1 GP = some (buildGitignoreContent
              (extractManagedBlock ((fsRead fsA GP).getD [])).linesWithoutBlock
              E) := by
            rw [hfs1W]
            exact fsRead_fsWrite_self fsA GP _
          have hexist : gitignoreExistingBlock ((fsRead fs1 GP).getD []) = E := by
            rw [hread1]
            simp only [Option.getD_some]
            rw [hreadA]
            exact existingBlock_build _ (gitignoreEntriesOf nfs) hmark hcr hE0 hfix'
          exact ⟨{ path := GP, updated := false, added := [], removed := []
                   skipped := false }, rfl,
            syncGitignore_same GP _ false fs1 hE0 hexist⟩
    obtain ⟨g2, hg2u, hg2⟩ := hkey
    have hrun2 := runFiles_all_unchanged false nfs fs1 hwritten2
    have hcall2 := syncConfigs_ok_eq cwd files rootOpt gipathOpt false fs1 nfs hn
    refine ⟨{ rootDir := pathResolve cwd (rootOpt.getD cwd)
              files := (runFiles false nfs fs1).1
              gitignore := g2 }, ?_, ?_, hg2u⟩
    · rw [hfs1, hcall2, hrun2.1, hg2]
    · intro r hr
      have haction := hrun2.2 r hr
      refine ⟨haction, ?_⟩
      obtain ⟨nf, hnf, hrel⟩ :=
        forall₂_mem_right (runFiles_results_shape false nfs fs1) r hr
      rw [hrel.2.2.1, haction]
      rfl

/-- Witness for C2 (amended) at a single target distinct from the ignore
file and empty prior state. -/
theorem C2_idempotent_witness :
    ∃ res2,
      syncConfigs "/r".data [("a.txt".data, { contents := "x".data })]
          { rootDir := none, dryRun := some false, gitignorePath := none }
          ((syncConfigs "/r".data [("a.txt".data, { contents := "x".data })]
            { rootDir := none, dryRun := some false, gitignorePath := none }
            []).2)
        = (.ok res2,
           (syncConfigs "/r".data [("a.txt".data, { contents := "x".data })]
             { rootDir := none, dryRun := some false, gitignorePath := none }
             []).2) ∧
      (∀ r ∈ res2.files, r.action = FileAction.unchanged ∧ r.skipped = true) ∧
      res2.gitignore.updated = false :=
  C2_idempotent "/r".data [("a.txt".data, { contents := "x".data })] none none
    []
    { rootDir := "/r".data
      files := [{ path := "a.txt".data
                  absolutePath := "/r/a.txt".data
                  action := FileAction.created
                  skipped := false
                  gitignored := true }]
      gitignore := { path := "/r/.gitignore".data
                     updated := true
                     added := ["a.txt".data]
                     removed := []
                     skipped := false } }
    (by decide)
    (by
      intro nfs hn nf hnf
      rw [show normalizeFiles [("a.txt".data, { contents := "x".data })]
          (pathResolve "/r".data ((none : Option Str).getD "/r".data))
          = .ok [{ relativePath := "a.txt".data
                   absolutePath := "/r/a.txt".data
                   contents := "x".data
                   gitignoreEntry := some "a.txt".data
                   mode := none }] from by decide] at hn
      injection hn with h
      subst h
      simp only [List.mem_singleton] at hnf
      subst hnf
      decide)
    (by decide)
    (by decide)
    (by
      intro nfs hn
      rw [show normalizeFiles [("a.txt".data, { contents := "x".data })]
          (pathResolve "/r".data ((none : Option Str).getD "/r".data))
          = .ok [{ relativePath := "a.txt".data
                   absolutePath := "/r/a.txt".data
                   contents := "x".data
                   gitignoreEntry := some "a.txt".data
                   mode := none }] from by decide] at hn
      injection hn with h
      subst h
      decide)

/-! ## Claim C1 (spec-modelled sentinel reconciler) -/

theorem fileOutcomeS_congr (f : NormalizedConfigFileS) (d : Bool) (fs fs' : FS)
    (h : fsRead fs' f.absolutePath = fsRead fs f.absolutePath) :
    (fileOutcomeS f d fs').1 = (fileOutcomeS f d fs).1 ∧
    (fileOutcomeS f d fs').2.1 = (fileOutcomeS f d fs).2.1 := by
  unfold fileOutcomeS
  rw [h]
  cases fsRead fs f.absolutePath with
  | none => exact ⟨rfl, rfl⟩
  | some cur =>
    simp only []
    by_cases hc : cur = f.contents
    · rw [if_pos hc, if_pos hc]
      exact ⟨rfl, rfl⟩
    · rw [if_neg hc, if_neg hc]
      cases f.sentinel with
      | none => exact ⟨rfl, rfl⟩
      | some s =>
        simp only []
        by_cases hi : isSubstring s cur = true
        · rw [if_pos hi, if_pos hi]
          exact ⟨rfl, rfl⟩
        · rw [if_neg hi, if_neg hi]
          exact ⟨rfl, rfl⟩

theorem fileOutcomeS_read_other (f : NormalizedConfigFileS) (d : Bool)
    (fs : FS) (p : Str) (hp : p ≠ f.absolutePath) :
    fsRead (fileOutcomeS f d fs).2.2 p = fsRead fs p := by
  unfold fileOutcomeS
  cases fsRead fs f.absolutePath with
  | none =>
    cases d
    · exact fsRead_fsWrite_ne fs f.absolutePath f.contents p hp
    · rfl
  | some cur =>
    simp only []
    by_cases hc : cur = f.contents
    · rw [if_pos hc]
    · rw [if_neg hc]
      cases f.sentinel with
      | none =>
        cases d
        · exact fsRead_fsWrite_ne fs f.absolutePath f.contents p hp
        · rfl
      | some s =>
        simp only []
        by_cases hi : isSubstring s cur = true
        · rw [if_pos hi]
          cases d
          · exact fsRead_fsWrite_ne fs f.absolutePath f.contents p hp
          · rfl
        · rw [if_neg hi]

theorem fileOutcomeS_unchanged_fs (f : NormalizedConfigFileS) (d : Bool)
    (fs : FS) (h : (fileOutcomeS f d fs).1 = FileAction.unchanged) :
    (fileOutcomeS f d fs).2.2 = fs := by
  unfold fileOutcomeS at h ⊢
  cases hr : fsRead fs f.absolutePath <;> rw [hr] at h <;>
    simp only [] at h ⊢
  · exact absurd h (by simp)
  · rename_i cur
    by_cases hc : cur = f.contents
    · rw [if_pos hc]
    · rw [if_neg hc] at h ⊢
      cases hsen : f.sentinel <;> rw [hsen] at h <;> simp only [] at h ⊢
      · exact absurd h (by simp)
      · rename_i s
        by_cases hi : isSubstring s cur = true
        · rw [if_pos hi] at h
          exact absurd h (by simp)
        · rw [if_neg hi]

/-- The §4.1 sentinel-mismatch case in one equation. -/
theorem fileOutcomeS_sentinel_mismatch (f : NormalizedConfigFileS) (d : Bool)
    (fs : FS) (s cur : Str) (hs : f.sentinel = some s)
    (hcur : fsRead fs f.absolutePath = some cur) (hdiff : cur ≠ f.contents)
    (hni : isSubstring s cur = false) :
    fileOutcomeS f d fs = (FileAction.unchanged, true, fs) := by
  unfold fileOutcomeS
  rw [hcur]
  simp only []
  rw [if_neg hdiff, hs]
  simp only []
  rw [hni]
  rfl

theorem runFilesS_read_other (d : Bool) :
    ∀ (l : List NormalizedConfigFileS) (fs : FS) (p : Str),
      (∀ nf ∈ l, p ≠ nf.absolutePath) →
      fsRead (runFilesS d l fs).2.2 p = fsRead fs p := by
  intro l
  induction l with
  | nil =>
    intro fs p _
    rfl
  | cons f rest ih =>
    intro fs p hp
    simp only [runFilesS]
    rw [ih _ p (fun nf hnf => hp nf (List.mem_cons_of_mem f hnf)),
      fileOutcomeS_read_other f d fs p (hp f (List.mem_cons_self f rest))]

/-- The reconciler's records, characterised against the initial file
system: with pairwise-distinct absolute paths, every record reports the
outcome its target would get from the initial state. -/
theorem runFilesS_shape (d : Bool) :
    ∀ (nfs : List NormalizedConfigFileS) (fs fs0 : FS),
      (∀ nf ∈ nfs, fsRead fs nf.absolutePath = fsRead fs0 nf.absolutePath) →
      (nfs.map (fun nf => nf.absolutePath)).Nodup →
      List.Forall₂ (fun (nf : NormalizedConfigFileS) (r : FileSyncResultS) =>
        r.path = nf.relativePath ∧ r.absolutePath = nf.absolutePath ∧
        r.action = (fileOutcomeS nf d fs0).1 ∧
        r.warning = (fileOutcomeS nf d fs0).2.1 ∧
        r.gitignored = decide (nf.gitignoreEntry.getD [] ≠ [] ∧
          (fileOutcomeS nf d fs0).2.1 = false))
        nfs (runFilesS d nfs fs).1 := by
  intro nfs
  induction nfs with
  | nil =>
    intro fs fs0 _ _
    exact List.Forall₂.nil
  | cons f rest ih =>
    intro fs fs0 hagree hdist
    simp only [List.map_cons, List.nodup_cons] at hdist
    have hag := hagree f (List.mem_cons_self f rest)
    have hcongr := fileOutcomeS_congr f d fs0 fs hag
    simp only [runFilesS]
    refine List.Forall₂.cons ⟨rfl, rfl, hcongr.1, hcongr.2, ?_⟩ ?_
    · rw [hcongr.2]
    · refine ih _ fs0 ?_ hdist.2
      intro nf hnf
      rw [fileOutcomeS_read_other f d fs nf.absolutePath
        (fun hcontra => hdist.1 (by rw [← hcontra]; exact List.mem_map_of_mem _ hnf))]
      exact hagree nf (List.mem_cons_of_mem f hnf)

/-- A target whose outcome from the initial state is `unchanged` keeps its
on-disk content through the whole reconciler loop. -/
theorem runFilesS_final_read (d : Bool) :
    ∀ (nfs : List NormalizedConfigFileS) (fs fs0 : FS),
      (∀ nf ∈ nfs, fsRead fs nf.absolutePath = fsRead fs0 nf.absolutePath) →
      (nfs.map (fun nf => nf.absolutePath)).Nodup →
      ∀ nf ∈ nfs, (fileOutcomeS nf d fs0).1 = FileAction.unchanged →
        fsRead (runFilesS d nfs fs).2.2 nf.absolutePath
          = fsRead fs nf.absolutePath := by
  intro nfs
  induction nfs with
  | nil =>
    intro fs fs0 _ _ nf hnf
    simp at hnf
  | cons f rest ih =>
    intro fs fs0 hagree hdist nf hnf hact
    simp only [List.map_cons, List.nodup_cons] at hdist
    simp only [runFilesS]
    rcases List.mem_cons.mp hnf with h1 | h1
    · subst h1
      have hag := hagree nf (List.mem_cons_self nf rest)
      have hact' : (fileOutcomeS nf d fs).1 = FileAction.unchanged := by
        rw [(fileOutcomeS_congr nf d fs0 fs hag).1, hact]
      rw [fileOutcomeS_unchanged_fs nf d fs hact']
      exact runFilesS_read_other d rest fs nf.absolutePath
        (fun g hg hcontra =>
          hdist.1 (by rw [hcontra]; exact List.mem_map_of_mem _ hg))
    · have hne : nf.absolutePath ≠ f.absolutePath := by
        intro hcontra
        exact hdist.1 (by rw [← hcontra]; exact List.mem_map_of_mem _ h1)
      have hstep : fsRead (fileOutcomeS f d fs).2.2 nf.absolutePath
          = fsRead fs nf.absolutePath :=
        fileOutcomeS_read_other f d fs nf.absolutePath hne
      have hagree' : ∀ g ∈ rest,
          fsRead (fileOutcomeS f d fs).2.2 g.absolutePath
            = fsRead fs0 g.absolutePath := by
        intro g hg
        have hgne : g.absolutePath ≠ f.absolutePath := by
          intro hcontra
          exact hdist.1 (by rw [← hcontra]; exact List.mem_map_of_mem _ hg)
        rw [fileOutcomeS_read_other f d fs g.absolutePath hgne]
        exact hagree g (List.mem_cons_of_mem f hg)
      rw [ih _ fs0 hagree' hdist.2 nf h1 hact, hstep]

/-- Every tracked entry accumulated by the loop is some target's non-empty
ignore entry. -/
theorem runFilesS_tracked_src (d : Bool) :
    ∀ (l : List NormalizedConfigFileS) (fs : FS),
      ∀ e ∈ (runFilesS d l fs).2.1,
        ∃ nf ∈ l, e = nf.gitignoreEntry.getD [] ∧
          nf.gitignoreEntry.getD [] ≠ [] := by
  intro l
  induction l with
  | nil =>
    intro fs e he
    simp [runFilesS] at he
  | cons f rest ih =>
    intro fs e he
    simp only [runFilesS] at he
    rcases List.mem_append.mp he with h1 | h1
    · split at h1
      · rename_i hcond
        simp only [List.mem_singleton] at h1
        exact ⟨f, List.mem_cons_self f rest, h1, hcond.2⟩
      · simp at h1
    · obtain ⟨nf, hnf, hprop⟩ := ih _ e h1
      exact ⟨nf, List.mem_cons_of_mem f hnf, hprop⟩

/-- A warned target's path never reaches the tracked-entry list: not from
its own step (excluded by the warning) and not from any other target's
(their entries are their own, pairwise-distinct relative paths). -/
theorem runFilesS_excluded (d : Bool) :
    ∀ (nfs : List NormalizedConfigFileS) (fs fs0 : FS),
      (∀ nf ∈ nfs, fsRead fs nf.absolutePath = fsRead fs0 nf.absolutePath) →
      (nfs.map (fun nf => nf.relativePath)).Nodup →
      (nfs.map (fun nf => nf.absolutePath)).Nodup →
      (∀ nf ∈ nfs, nf.gitignoreEntry = none ∨
        nf.gitignoreEntry = some nf.relativePath) →
      ∀ nf ∈ nfs, (fileOutcomeS nf d fs0).2.1 = true →
        nf.relativePath ∉ (runFilesS d nfs fs).2.1 := by
  intro nfs
  induction nfs with
  | nil =>
    intro fs fs0 _ _ _ _ nf hnf
    simp at hnf
  | cons f rest ih =>
    intro fs fs0 hagree hrel habs hshape nf hnf hwarn
    simp only [List.map_cons, List.nodup_cons] at hrel habs
    simp only [runFilesS]
    intro hcontra
    rcases List.mem_append.mp hcontra with h1 | h1
    · split at h1
      case _ hcond =>
        simp only [List.mem_singleton] at h1
        have hfent : f.gitignoreEntry.getD [] = f.relativePath := by
          rcases hshape f (List.mem_cons_self f rest) with h2 | h2
          · rw [h2] at hcond
            exact absurd rfl hcond.2
          · rw [h2]
            rfl
        rcases List.mem_cons.mp hnf with h3 | h3
        · subst h3
          have hag := hagree nf (List.mem_cons_self nf rest)
          have : (fileOutcomeS nf d fs).2.1 = true := by
            rw [(fileOutcomeS_congr nf d fs0 fs hag).2, hwarn]
          rw [this] at hcond
          exact absurd hcond.1 (by decide)
        · rw [hfent] at h1
          exact hrel.1 (by rw [← h1]; exact List.mem_map_of_mem _ h3)
      case _ =>
        simp at h1
    · rcases List.mem_cons.mp hnf with h3 | h3
      · subst h3
        obtain ⟨g, hg, hge, hgne⟩ := runFilesS_tracked_src d rest _ _ h1
        have hgent : g.gitignoreEntry.getD [] = g.relativePath := by
          rcases hshape g (List.mem_cons_of_mem nf hg) with h2 | h2
          · rw [h2] at hgne
            exact absurd rfl hgne
          · rw [h2]
            rfl
        rw [hgent] at hge
        exact hrel.1 (by rw [hge]; exact List.mem_map_of_mem _ hg)
      · have hagree' : ∀ g ∈ rest,
            fsRead (fileOutcomeS f d fs).2.2 g.absolutePath
              = fsRead fs0 g.absolutePath := by
          intro g hg
          have hgne : g.absolutePath ≠ f.absolutePath := by
            intro hc
            exact habs.1 (by rw [← hc]; exact List.mem_map_of_mem _ hg)
          rw [fileOutcomeS_read_other f d fs g.absolutePath hgne]
          exact hagree g (List.mem_cons_of_mem f hg)
        exact ih _ fs0 hagree' hrel.2 habs.2
          (fun g hg => hshape g (List.mem_cons_of_mem f hg)) nf h3 hwarn h1

/-- Structural facts established by the sentinel-aware normalizer:
pairwise-distinct relative paths (none previously seen), the ignore-entry
field's two possible shapes, and the path-computation origin of every
record. -/
theorem normalizeFilesGoS_props (rootDir : Str) :
    ∀ (l : List (Str × ConfigEntryS)) (seen : List Str)
      (nfs : List NormalizedConfigFileS),
      normalizeFilesGoS rootDir l seen = .ok nfs →
      ((nfs.map (fun nf => nf.relativePath)).Nodup ∧
        ∀ nf ∈ nfs, nf.relativePath ∉ seen) ∧
      ∀ nf ∈ nfs, (nf.gitignoreEntry = none ∨
          nf.gitignoreEntry = some nf.relativePath) ∧
        ∃ raw, computePaths rootDir raw
          = .ok (nf.relativePath, nf.absolutePath) := by
  intro l
  induction l with
  | nil =>
    intro seen nfs h
    simp only [normalizeFilesGoS] at h
    cases h
    exact ⟨⟨by simp, by simp⟩, by simp⟩
  | cons pe rest ih =>
    intro seen nfs h
    obtain ⟨rawPath, entry⟩ := pe
    simp only [normalizeFilesGoS] at h
    split at h
    · exact absurd h (by simp)
    rename_i pair hcp
    split at h
    · exact absurd h (by simp)
    rename_i hseen
    split at h
    · exact absurd h (by simp)
    split at h
    · exact absurd h (by simp)
    rename_i tail htail
    simp only [Except.ok.injEq] at h
    subst h
    obtain ⟨⟨hnodup, hseenT⟩, hprops⟩ := ih (pair.1 :: seen) tail htail
    refine ⟨⟨?_, ?_⟩, ?_⟩
    · simp only [List.map_cons, List.nodup_cons]
      refine ⟨?_, hnodup⟩
      intro hcontra
      obtain ⟨nf, hnf, hrel⟩ := List.mem_map.mp hcontra
      have := hseenT nf hnf
      rw [hrel] at this
      exact this (List.mem_cons_self _ _)
    · intro nf hnf
      rcases List.mem_cons.mp hnf with h1 | h1
      · subst h1
        simp only
        intro hcontra
        exact hseen ((seenMem_iff seen _).mpr hcontra)
      · intro hcontra
        exact hseenT nf h1 (List.mem_cons_of_mem _ hcontra)
    · intro nf hnf
      rcases List.mem_cons.mp hnf with h1 | h1
      · subst h1
        refine ⟨?_, ⟨rawPath, ?_⟩⟩
        · simp only
          by_cases hg : entry.gitignore = some false
          · exact Or.inl (by rw [if_pos hg])
          · exact Or.inr (by rw [if_neg hg])
        · simp only
          exact hcp
      · exact hprops nf h1

theorem normalizeFilesS_abs_nodup (files : ConfigMapS) (base p : Str)
    (nfs : List NormalizedConfigFileS)
    (h : normalizeFilesS files (pathResolve base p) = .ok nfs) :
    (nfs.map (fun nf => nf.absolutePath)).Nodup := by
  obtain ⟨R, hR, hform⟩ := pathResolve_clean_form base p
  have hprops := normalizeFilesGoS_props (pathResolve base p) files [] nfs h
  have hrels := hprops.1.1
  have hrec : ∀ nf ∈ nfs,
      List.intercalate ['/']
        ((normalizeSegs (splitChar '/' nf.absolutePath)).drop R.length)
        = nf.relativePath := by
    intro nf hnf
    obtain ⟨_, ⟨raw, hraw⟩⟩ := hprops.2 nf hnf
    rw [hform] at hraw
    exact (computePaths_ok R hR raw nf.relativePath nf.absolutePath hraw).2.symm
  apply List.Nodup.of_map
    (fun a => List.intercalate ['/'] ((normalizeSegs (splitChar '/' a)).drop R.length))
  rw [List.map_map]
  have heq : nfs.map ((fun a => List.intercalate ['/']
        ((normalizeSegs (splitChar '/' a)).drop R.length)) ∘
        fun nf => nf.absolutePath)
      = nfs.map (fun nf => nf.relativePath) :=
    List.map_congr_left (fun nf hnf => hrec nf hnf)
  rw [heq]
  exact hrels

/-- Unfolding of a successful sentinel-aware `syncConfigsS` call. -/
theorem syncConfigsS_ok_eq (cwd : Str) (files : ConfigMapS)
    (rootOpt : Option Str) (gipathOpt : Option Str) (dryOpt : Option Bool)
    (fs : FS) (nfs : List NormalizedConfigFileS)
    (hn : normalizeFilesS files (pathResolve cwd (rootOpt.getD cwd)) = .ok nfs) :
    syncConfigsS cwd files
        { rootDir := rootOpt, dryRun := dryOpt, gitignorePath := gipathOpt } fs
      = (.ok { rootDir := pathResolve cwd (rootOpt.getD cwd)
               files := (runFilesS (dryOpt.getD false) nfs fs).1
               gitignore := (syncGitignore
                 (resolveGitignorePath (pathResolve cwd (rootOpt.getD cwd))
                   gipathOpt)
                 (runFilesS (dryOpt.getD false) nfs fs).2.1
                 (dryOpt.getD false)
                 (runFilesS (dryOpt.getD false) nfs fs).2.2).1 },
         (syncGitignore
           (resolveGitignorePath (pathResolve cwd (rootOpt.getD cwd)) gipathOpt)
           (runFilesS (dryOpt.getD false) nfs fs).2.1
           (dryOpt.getD false)
           (runFilesS (dryOpt.getD false) nfs fs).2.2).2) := by
  unfold syncConfigsS
  rw [hn]

/-- Counterexample to C1 as stated, in the spec-modelled system: when the
sentinel-protected target is the ignore file itself, the reconciler warns
and leaves it untouched, but the ignore manager then rewrites that very
file to track the other target, so the on-disk file is NOT left
byte-for-byte untouched. -/
theorem C1_sentinel_protection_cex :
    ((syncConfigsS "/r".data
        [(".gitignore".data,
          { contents := "__S__\nx\n".data, sentinel := some "__S__".data }),
         ("a.txt".data, { contents := "y".data })]
        { dryRun := some false }
        [("/r/.gitignore".data, "unrelated\n".data)]).1.map
      (fun res => res.files.map (fun r => (r.action, r.warning, r.gitignored))))
      = .ok [(FileAction.unchanged, true, false),
             (FileAction.created, false, true)] ∧
    fsRead (syncConfigsS "/r".data
        [(".gitignore".data,
          { contents := "__S__\nx\n".data, sentinel := some "__S__".data }),
         ("a.txt".data, { contents := "y".data })]
        { dryRun := some false }
        [("/r/.gitignore".data, "unrelated\n".data)]).2 "/r/.gitignore".data
      ≠ some "unrelated\n".data := by
  decide

/-- C1 (amended, spec-modelled): every sentinel-protected target whose
existing file differs from the desired content without containing the
sentinel gets a record with action `unchanged`, a warning and
`gitignored = false`, and its path is excluded from the tracked entries
handed to the ignore manager — unconditionally; provided additionally that
no declared target resolves to the ignore file's own path, its on-disk
content also survives the whole invocation byte-for-byte. -/
theorem C1_sentinel_protection (cwd : Str) (files : ConfigMapS)
    (rootOpt : Option Str) (gipathOpt : Option Str) (dryOpt : Option Bool)
    (fs : FS) (nfs : List NormalizedConfigFileS)
    (hn : normalizeFilesS files (pathResolve cwd (rootOpt.getD cwd)) = .ok nfs) :
    ∃ res,
      (syncConfigsS cwd files
        { rootDir := rootOpt, dryRun := dryOpt, gitignorePath := gipathOpt }
        fs).1 = .ok res ∧
      List.Forall₂ (fun (nf : NormalizedConfigFileS) (r : FileSyncResultS) =>
        ∀ s cur, nf.sentinel = some s → fsRead fs nf.absolutePath = some cur →
          cur ≠ nf.contents → isSubstring s cur = false →
          r.action = FileAction.unchanged ∧ r.warning = true ∧
            r.gitignored = false)
        nfs res.files ∧
      (∀ nf ∈ nfs, ∀ s cur, nf.sentinel = some s →
        fsRead fs nf.absolutePath = some cur → cur ≠ nf.contents →
        isSubstring s cur = false →
        nf.relativePath ∉ (runFilesS (dryOpt.getD false) nfs fs).2.1) ∧
      ((∀ nf ∈ nfs, nf.absolutePath ≠
          resolveGitignorePath (pathResolve cwd (rootOpt.getD cwd)) gipathOpt) →
        ∀ nf ∈ nfs, ∀ s cur, nf.sentinel = some s →
          fsRead fs nf.absolutePath = some cur → cur ≠ nf.contents →
          isSubstring s cur = false →
          fsRead (syncConfigsS cwd files
              { rootDir := rootOpt, dryRun := dryOpt, gitignorePath := gipathOpt }
              fs).2 nf.absolutePath = some cur) := by
  have hprops := normalizeFilesGoS_props (pathResolve cwd (rootOpt.getD cwd))
    files [] nfs hn
  have hrel_nodup := hprops.1.1
  have hshape : ∀ nf ∈ nfs, nf.gitignoreEntry = none ∨
      nf.gitignoreEntry = some nf.relativePath :=
    fun nf hnf => (hprops.2 nf hnf).1
  have habs_nodup := normalizeFilesS_abs_nodup files cwd (rootOpt.getD cwd) nfs hn
  have hcall := syncConfigsS_ok_eq cwd files rootOpt gipathOpt dryOpt fs nfs hn
  refine ⟨_, by rw [hcall], ?_, ?_, ?_⟩
  · show List.Forall₂ _ nfs (runFilesS (dryOpt.getD false) nfs fs).1
    refine List.Forall₂.imp ?_
      (runFilesS_shape (dryOpt.getD false) nfs fs fs (fun nf _ => rfl) habs_nodup)
    rintro nf r ⟨hpath, habs, hact, hwarn, hgig⟩ s cur hs hcur hdiff hni
    have hout := fileOutcomeS_sentinel_mismatch nf (dryOpt.getD false) fs s cur
      hs hcur hdiff hni
    refine ⟨?_, ?_, ?_⟩
    · rw [hact, hout]
    · rw [hwarn, hout]
    · rw [hgig, hout]
      simp
  · intro nf hnf s cur hs hcur hdiff hni
    have hout := fileOutcomeS_sentinel_mismatch nf (dryOpt.getD false) fs s cur
      hs hcur hdiff hni
    exact runFilesS_excluded (dryOpt.getD false) nfs fs fs (fun g _ => rfl)
      hrel_nodup habs_nodup hshape nf hnf (by rw [hout])
  · intro hcol nf hnf s cur hs hcur hdiff hni
    have hout := fileOutcomeS_sentinel_mismatch nf (dryOpt.getD false) fs s cur
      hs hcur hdiff hni
    rw [hcall]
    show fsRead (syncGitignore _ _ _ _).2 nf.absolutePath = some cur
    rw [syncGitignore_read_other _ _ _ _ nf.absolutePath (hcol nf hnf),
      runFilesS_final_read (dryOpt.getD false) nfs fs fs (fun g _ => rfl)
        habs_nodup nf hnf (by rw [hout])]
    exact hcur

/-- Witness for C1 (amended) at a sentinel-protected target, distinct from
the ignore file, whose pre-existing content lacks the sentinel. -/
theorem C1_sentinel_protection_witness :
    ∃ res,
      (syncConfigsS "/r".data
        [("cfg.txt".data,
          { contents := "__S__\nbody\n".data, sentinel := some "__S__".data })]
        { rootDir := none, dryRun := some false, gitignorePath := none }
        [("/r/cfg.txt".data, "unrelated=true\n".data)]).1 = .ok res ∧
      List.Forall₂ (fun (nf : NormalizedConfigFileS) (r : FileSyncResultS) =>
        ∀ s cur, nf.sentinel = some s →
          fsRead [("/r/cfg.txt".data, "unrelated=true\n".data)]
            nf.absolutePath = some cur →
          cur ≠ nf.contents → isSubstring s cur = false →
          r.action = FileAction.unchanged ∧ r.warning = true ∧
            r.gitignored = false)
        [{ relativePath := "cfg.txt".data
           absolutePath := "/r/cfg.txt".data
           contents := "__S__\nbody\n".data
           gitignoreEntry := some "cfg.txt".data
           mode := none
           sentinel := some "__S__".data }] res.files ∧
      (∀ nf ∈ ([{ relativePath := "cfg.txt".data
                  absolutePath := "/r/cfg.txt".data
                  contents := "__S__\nbody\n".data
                  gitignoreEntry := some "cfg.txt".data
                  mode := none
                  sentinel := some "__S__".data }] : List NormalizedConfigFileS),
        ∀ s cur, nf.sentinel = some s →
        fsRead [("/r/cfg.txt".data, "unrelated=true\n".data)]
          nf.absolutePath = some cur →
        cur ≠ nf.contents → isSubstring s cur = false →
        nf.relativePath ∉ (runFilesS ((some false : Option Bool).getD false)
          [{ relativePath := "cfg.txt".data
             absolutePath := "/r/cfg.txt".data
             contents := "__S__\nbody\n".data
             gitignoreEntry := some "cfg.txt".data
             mode := none
             sentinel := some "__S__".data }]
          [("/r/cfg.txt".data, "unrelated=true\n".data)]).2.1) ∧
      ((∀ nf ∈ ([{ relativePath := "cfg.txt".data
                   absolutePath := "/r/cfg.txt".data
                   contents := "__S__\nbody\n".data
                   gitignoreEntry := some "cfg.txt".data
                   mode := none
                   sentinel := some "__S__".data }] :
                  List NormalizedConfigFileS),
          nf.absolutePath ≠ resolveGitignorePath
            (pathResolve "/r".data ((none : Option Str).getD "/r".data)) none) →
        ∀ nf ∈ ([{ relativePath := "cfg.txt".data
                   absolutePath := "/r/cfg.txt".data
                   contents := "__S__\nbody\n".data
                   gitignoreEntry := some "cfg.txt".data
                   mode := none
                   sentinel := some "__S__".data }] :
                  List NormalizedConfigFileS),
        ∀ s cur, nf.sentinel = some s →
        fsRead [("/r/cfg.txt".data, "unrelated=true\n".data)]
          nf.absolutePath = some cur →
        cur ≠ nf.contents → isSubstring s cur = false →
        fsRead (syncConfigsS "/r".data
            [("cfg.txt".data,
              { contents := "__S__\nbody\n".data,
                sentinel := some "__S__".data })]
            { rootDir := none, dryRun := some false, gitignorePath := none }
            [("/r/cfg.txt".data, "unrelated=true\n".data)]).2
          nf.absolutePath = some cur) :=
  C1_sentinel_protection "/r".data
    [("cfg.txt".data,
      { contents := "__S__\nbody\n".data, sentinel := some "__S__".data })]
    none none (some false)
    [("/r/cfg.txt".data, "unrelated=true\n".data)]
    [{ relativePath := "cfg.txt".data
       absolutePath := "/r/cfg.txt".data
       contents := "__S__\nbody\n".data
       gitignoreEntry := some "cfg.txt".data
       mode := none
       sentinel := some "__S__".data }]
    (by decide)

end Cpconfig
